import Mathlib

/-!
Verification of the playlist-archiving script (`script.py`).

Texts are modelled as lists of characters (`Str`), mirroring Python strings.
Fallible code (code that can raise) is modelled with `Option`: `none` means an
exception propagates.  All definitions are shallow embeddings of the
corresponding Python functions; the embedding keeps the source's names where
Lean allows it.
-/

set_option maxHeartbeats 1000000
set_option maxRecDepth 100000

namespace SpotifyArchive

/-- Python strings, modelled as lists of characters. -/
abbrev Str := List Char

/-- `Album` namedtuple: `["url", "name"]`; `url` may be `None`. -/
structure Album where
  url : Option Str
  name : Str
deriving DecidableEq, Repr

/-- `Artist` namedtuple: `["url", "name"]`; `url` may be `None`. -/
structure Artist where
  url : Option Str
  name : Str
deriving DecidableEq, Repr

/-- `Track` namedtuple: `["id", "url", "duration_ms", "name", "album", "artists"]`. -/
structure Track where
  id : Str
  url : Option Str
  duration_ms : Nat
  name : Str
  album : Album
  artists : List Artist
deriving DecidableEq, Repr

/-- `Playlist` namedtuple: `["id", "url", "name", "description", "tracks"]`. -/
structure Playlist where
  id : Str
  url : Option Str
  name : Str
  description : Str
  tracks : List Track
deriving DecidableEq, Repr

/-! ### Generic text helpers (Python `str` operations) -/

/-- Decimal digit character, `chr(48 + n)` for `n < 10`. -/
def digitChar (n : Nat) : Char := Char.ofNat (48 + n)

/-- Fuel-driven worker for `natStr`; the fuel is an upper bound on recursion
depth so the definition is structural and kernel-reducible. -/
def natStrAux : Nat → Nat → Str
  | 0, _ => []
  | fuel + 1, n =>
    if n < 10 then [digitChar n]
    else natStrAux fuel (n / 10) ++ [digitChar (n % 10)]

/-- Python `str(n)` for a non-negative integer. -/
def natStr (n : Nat) : Str := natStrAux (n + 1) n

/-- Python `"%02d" % n`: decimal rendering left-padded with `'0'` to width 2. -/
def pad2 (n : Nat) : Str := if n < 10 then '0' :: natStr n else natStr n

/-- Python `sep.join(parts)`. -/
def interc (sep : Str) : List Str → Str
  | [] => []
  | [x] => x
  | x :: y :: rest => x ++ sep ++ interc sep (y :: rest)

/-- The characters Python `str.splitlines` treats as line boundaries. -/
def isBreakChar (c : Char) : Bool :=
  c = '\n' || c = '\r' || c = Char.ofNat 0x0b || c = Char.ofNat 0x0c ||
  c = Char.ofNat 0x1c || c = Char.ofNat 0x1d || c = Char.ofNat 0x1e ||
  c = Char.ofNat 0x85 || c = Char.ofNat 0x2028 || c = Char.ofNat 0x2029

/-- Worker for `splitlines`; `acc` holds the current line reversed.  A
`"\r\n"` pair counts as a single boundary; the inner match only names the
tail (the guard guarantees it is a cons, so its nil arm is unreachable). -/
def splitlinesAux : Str → Str → List Str
  | acc, [] => if acc = [] then [] else [acc.reverse]
  | acc, c :: rest =>
    if c = '\r' ∧ rest.head? = some '\n' then
      match rest with
      | _ :: rest2 => acc.reverse :: splitlinesAux [] rest2
      | [] => []
    else if isBreakChar c then acc.reverse :: splitlinesAux [] rest
    else splitlinesAux (c :: acc) rest

/-- Python `s.splitlines()`. -/
def splitlines (s : Str) : List Str := splitlinesAux [] s

/-- Fuel-driven worker for `replaceStr`. -/
def replaceAux (pat rep : Str) : Nat → Str → Str
  | 0, s => s
  | fuel + 1, s =>
    if pat.isPrefixOf s then rep ++ replaceAux pat rep fuel (s.drop pat.length)
    else
      match s with
      | [] => []
      | c :: t => c :: replaceAux pat rep fuel t

/-- Python `s.replace(pat, rep)`: leftmost, non-overlapping. -/
def replaceStr (pat rep s : Str) : Str :=
  if pat = [] then s else replaceAux pat rep (s.length + 1) s

/-- Python string comparison `a < b` (lexicographic by code point). -/
def strLt : Str → Str → Bool
  | [], [] => false
  | [], _ :: _ => true
  | _ :: _, [] => false
  | a :: as, b :: bs => a < b || (a = b && strLt as bs)

/-- Python string comparison `a <= b`. -/
def strLe : Str → Str → Bool
  | [], _ => true
  | _ :: _, [] => false
  | a :: as, b :: bs => a < b || (a = b && strLe as bs)

/-- Python `s.lower()` (they agree on ASCII, which is all the proofs use). -/
def lower (s : Str) : Str := s.map Char.toLower

/-! ### `Formatter._format_duration` -/

namespace Formatter

/-- Python `str(datetime.timedelta(seconds=s))` for a non-negative number of
seconds: `H:MM:SS` with unpadded hours, preceded by `"N day(s), "` when the
duration is at least one day. -/
def timedeltaStr (s : Nat) : Str :=
  let d := s / 86400
  let r := s % 86400
  let h := r / 3600
  let m := r % 3600 / 60
  let sec := r % 60
  let base := natStr h ++ ':' :: pad2 m ++ ':' :: pad2 sec
  if d = 0 then base
  else natStr d ++ (" day").data ++ (if d = 1 then [] else ['s']) ++ (", ").data ++ base

/-- The scan condition `timedelta[index] in [":", "0"]`. -/
def isTrimChar (c : Char) : Bool := c = ':' || c = '0'

/-- `Formatter._format_duration`: whole seconds from milliseconds, rendered via
`timedeltaStr`, then leading `':'`/`'0'` characters are skipped.  The scan
`while timedelta[index] in [":", "0"]` has no bound check: when every character
is a trim character it raises `IndexError`, modelled as `none`. -/
def formatDuration (duration_ms : Nat) : Option Str :=
  match (timedeltaStr (duration_ms / 1000)).dropWhile isTrimChar with
  | [] => none
  | r => some r

end Formatter

/-! ### Facts about `dropWhile` used for the duration claims -/

theorem dropWhile_decompose (p : Char → Bool) (s : Str) :
    ∃ pre, s = pre ++ s.dropWhile p ∧ ∀ c ∈ pre, p c = true := by
  induction s with
  | nil => exact ⟨[], rfl, by simp⟩
  | cons c rest ih =>
    by_cases h : p c
    · obtain ⟨pre, hpre, hall⟩ := ih
      refine ⟨c :: pre, ?_, ?_⟩
      · simpa [List.dropWhile, h] using congrArg (c :: ·) hpre
      · intro x hx
        rcases List.mem_cons.mp hx with hx | hx
        · subst hx; exact h
        · exact hall x hx
    · refine ⟨[], ?_, by simp⟩
      simp [List.dropWhile, h]

theorem dropWhile_head_not (p : Char → Bool) (s : Str) :
    ∀ c, (s.dropWhile p).head? = some c → p c = false := by
  induction s with
  | nil => intro c h; simp [List.dropWhile] at h
  | cons a rest ih =>
    intro c h
    by_cases ha : p a
    · exact ih c (by simpa [List.dropWhile, ha] using h)
    · simp [List.dropWhile, ha] at h
      subst h
      simpa using ha

theorem dropWhile_eq_nil_iff_all (p : Char → Bool) (s : Str) :
    s.dropWhile p = [] ↔ ∀ c ∈ s, p c = true := by
  induction s with
  | nil => simp [List.dropWhile]
  | cons a rest ih =>
    by_cases ha : p a
    · simp [List.dropWhile, ha, ih]
    · simp [List.dropWhile, ha]

/-- C8: the duration formatter computes whole seconds from milliseconds,
formats as `H:MM:SS`, and strips leading `':'`/`'0'` characters up to but not
including the first character that is neither; in particular 3,661,000 ms
renders as `"1:01:01"`, 59,000 ms as `"59"`, and 61,000 ms as `"1:01"`. -/
theorem C8_duration_formatting :
    Formatter.formatDuration 3661000 = some ("1:01:01").data ∧
    Formatter.formatDuration 59000 = some ("59").data ∧
    Formatter.formatDuration 61000 = some ("1:01").data ∧
    (∀ ms r, Formatter.formatDuration ms = some r →
      ∃ pre, Formatter.timedeltaStr (ms / 1000) = pre ++ r ∧
        (∀ c ∈ pre, c = ':' ∨ c = '0') ∧
        ∀ c, r.head? = some c → ¬(c = ':' ∨ c = '0')) := by
  refine ⟨by decide, by decide, by decide, ?_⟩
  intro ms r hr
  unfold Formatter.formatDuration at hr
  set t := Formatter.timedeltaStr (ms / 1000) with ht
  have hcase : t.dropWhile Formatter.isTrimChar = r := by
    rcases h : t.dropWhile Formatter.isTrimChar with _ | ⟨c, rest⟩
    · rw [h] at hr; exact absurd hr (by simp)
    · rw [h] at hr
      simpa using hr
  obtain ⟨pre, hpre, hall⟩ := dropWhile_decompose Formatter.isTrimChar t
  refine ⟨pre, by rw [← hcase]; exact hpre, ?_, ?_⟩
  · intro c hc
    have := hall c hc
    unfold Formatter.isTrimChar at this
    rcases Bool.or_eq_true_iff.mp this with h1 | h1
    · exact Or.inl (by simpa using h1)
    · exact Or.inr (by simpa using h1)
  · intro c hc hcontra
    have := dropWhile_head_not Formatter.isTrimChar t c (by rw [hcase]; exact hc)
    unfold Formatter.isTrimChar at this
    rcases hcontra with h1 | h1 <;> simp [h1] at this

/-- Witness for C8: the general stripping characterization instantiated at a
concrete input. -/
theorem C8_duration_formatting_witness :
    ∃ pre, Formatter.timedeltaStr (61000 / 1000) = pre ++ ("1:01").data ∧
      (∀ c ∈ pre, c = ':' ∨ c = '0') ∧
      ∀ c, (("1:01").data.head? = some c) → ¬(c = ':' ∨ c = '0') :=
  C8_duration_formatting.2.2.2 61000 ("1:01").data C8_duration_formatting.2.2.1

/-- C9: for a duration of exactly 0 milliseconds (or any duration whose
formatted `H:MM:SS` form consists entirely of `'0'` and `':'` characters), the
trimming scan has no stopping character, so the formatter has no defined
result: its error branch (`none`, the `IndexError`) is reached. -/
theorem C9_zero_duration_error :
    Formatter.formatDuration 0 = none ∧
    (∀ ms, ms < 1000 → Formatter.formatDuration ms = none) ∧
    (∀ ms, (∀ c ∈ Formatter.timedeltaStr (ms / 1000), c = '0' ∨ c = ':') →
      Formatter.formatDuration ms = none) := by
  refine ⟨by decide, ?_, ?_⟩
  · intro ms hms
    have h0 : ms / 1000 = 0 := Nat.div_eq_of_lt hms
    unfold Formatter.formatDuration
    rw [h0]
    decide
  · intro ms hall
    unfold Formatter.formatDuration
    have : (Formatter.timedeltaStr (ms / 1000)).dropWhile Formatter.isTrimChar = [] := by
      rw [dropWhile_eq_nil_iff_all]
      intro c hc
      unfold Formatter.isTrimChar
      rcases hall c hc with h | h <;> simp [h]
    rw [this]

/-- Witness for C9: the error branch reached through each hypothesis at
concrete inputs. -/
theorem C9_zero_duration_error_witness :
    Formatter.formatDuration 999 = none ∧ Formatter.formatDuration 0 = none :=
  ⟨C9_zero_duration_error.2.1 999 (by decide),
   C9_zero_duration_error.2.2 0 (by decide)⟩

/-! ### The fetch client (`Spotify._make_request` and `Spotify._get_tracks`)

`Spotify._make_request` is

    def _make_request(self, href, params=None):
        return self._session.get(href, params=None).json()

a single un-retried GET.  The observable side effects of a fetch are recorded
as a trace of `Effect`s (HTTP requests and sleeps); the remote server is a
function from href to response. -/

namespace Spotify

/-- An observable side effect of the fetch client. -/
inductive Effect where
  | httpGet (href : Str)
  | sleep (seconds : Nat)
deriving DecidableEq, Repr

/-- The parsed JSON body of a response to a tracks-page request: either an
error envelope `{"error": {"status": ...}}` (429 included) or a page of
items with a `next` cursor. -/
inductive ApiResponse where
  | error (status : Nat)
  | page (items : List (Option Track)) (next : Option Str)
deriving DecidableEq, Repr

/-- `Spotify._make_request`: one GET, whose JSON body is returned as-is.  The
trace records exactly one request and, in particular, no sleep. -/
def makeRequest (session : Str → ApiResponse) (href : Str) : ApiResponse × List Effect :=
  (session href, [Effect.httpGet href])

/-- `Spotify._get_tracks`'s pagination loop: follow `next` cursors until
`None`, dropping empty track entries; an error envelope raises
`Exception("Failed to get tracks")`, modelled as `Except.error ()`.  The fuel
bounds the number of iterations of the `while` loop (`none` = fuel ran out);
every theorem about the loop is conditional on it completing. -/
def getTracks (session : Str → ApiResponse) :
    Nat → Option Str → Option (Except Unit (List Track) × List Effect)
  | _, none => some (Except.ok [], [])
  | 0, some _ => none
  | fuel + 1, some href =>
    match makeRequest session href with
    | (ApiResponse.error _, effs) => some (Except.error (), effs)
    | (ApiResponse.page items next, effs) =>
      match getTracks session fuel next with
      | none => none
      | some (Except.error e, effs2) => some (Except.error e, effs ++ effs2)
      | some (Except.ok ts, effs2) => some (Except.ok (items.reduceOption ++ ts), effs ++ effs2)

end Spotify

/-- C1 claims the fetch client, on a 429-equivalent response, reads the
server-supplied wait, adds 1 second, sleeps, retries the request and
decrements a 30-second retry budget, failing with `RetryBudgetExceeded` when
the budget is exhausted.  The code has no such logic: here a server that
answers 429 to every request yields a fetch that performs exactly one GET,
never sleeps, and fails with the generic tracks error — refuting the claim. -/
theorem C1_counterexample :
    Spotify.getTracks (fun _ => Spotify.ApiResponse.error 429) 5 (some ("https://api.spotify.com/v1/playlists/p/tracks").data) =
      some (Except.error (), [Spotify.Effect.httpGet ("https://api.spotify.com/v1/playlists/p/tracks").data]) ∧
    (∀ n, Spotify.Effect.sleep n ∉
      [Spotify.Effect.httpGet ("https://api.spotify.com/v1/playlists/p/tracks").data]) := by
  constructor
  · rfl
  · intro n h
    simp at h

/-- C1 (amended): the fetch client performs no rate-limit handling at all.
`_make_request` issues each underlying request exactly once; no execution of
the pagination loop ever sleeps, and a 429-equivalent (error-envelope)
response makes the fetch fail at once — one GET, no retry, no retry budget. -/
theorem C1_no_retry_no_sleep :
    (∀ session href, Spotify.makeRequest session href =
      (session href, [Spotify.Effect.httpGet href])) ∧
    (∀ session fuel ohref res effs,
      Spotify.getTracks session fuel ohref = some (res, effs) →
      ∀ n, Spotify.Effect.sleep n ∉ effs) ∧
    (∀ session href status, session href = Spotify.ApiResponse.error status →
      ∀ fuel, Spotify.getTracks session (fuel + 1) (some href) =
        some (Except.error (), [Spotify.Effect.httpGet href])) := by
  refine ⟨fun _ _ => rfl, ?_, ?_⟩
  · intro session fuel
    induction fuel with
    | zero =>
      intro ohref res effs h n
      cases ohref with
      | none =>
        simp only [Spotify.getTracks] at h
        cases h
        simp
      | some href => simp [Spotify.getTracks] at h
    | succ fuel ih =>
      intro ohref res effs h n
      cases ohref with
      | none =>
        simp only [Spotify.getTracks] at h
        cases h
        simp
      | some href =>
        rcases hresp : session href with status | ⟨items, next⟩
        · simp only [Spotify.getTracks, Spotify.makeRequest, hresp, Option.some.injEq,
            Prod.mk.injEq] at h
          rw [← h.2]
          simp
        · rcases hrec : Spotify.getTracks session fuel next with _ | ⟨r2, effs2⟩
          · simp [Spotify.getTracks, Spotify.makeRequest, hresp, hrec] at h
          · have hsub := ih next r2 effs2 hrec n
            cases r2 with
            | error e =>
              simp only [Spotify.getTracks, Spotify.makeRequest, hresp, hrec,
                Option.some.injEq, Prod.mk.injEq] at h
              rw [← h.2]
              intro hmem
              rcases List.mem_append.mp hmem with hm | hm
              · simp at hm
              · exact hsub hm
            | ok ts =>
              simp only [Spotify.getTracks, Spotify.makeRequest, hresp, hrec,
                Option.some.injEq, Prod.mk.injEq] at h
              rw [← h.2]
              intro hmem
              rcases List.mem_append.mp hmem with hm | hm
              · simp at hm
              · exact hsub hm
  · intro session href status hresp fuel
    simp [Spotify.getTracks, Spotify.makeRequest, hresp]

/-- Witness for C1's amended theorem at a concrete session and fuel. -/
theorem C1_no_retry_no_sleep_witness :
    Spotify.getTracks (fun _ => Spotify.ApiResponse.error 429) 4 (some ("h").data) =
      some (Except.error (), [Spotify.Effect.httpGet ("h").data]) ∧
    Spotify.Effect.sleep 6 ∉ [Spotify.Effect.httpGet ("h").data] := by
  refine ⟨C1_no_retry_no_sleep.2.2 (fun _ => Spotify.ApiResponse.error 429) ("h").data 429 rfl 3, ?_⟩
  exact C1_no_retry_no_sleep.2.1 (fun _ => Spotify.ApiResponse.error 429) 4 (some ("h").data)
    (Except.error ()) [Spotify.Effect.httpGet ("h").data]
    (C1_no_retry_no_sleep.2.2 (fun _ => Spotify.ApiResponse.error 429) ("h").data 429 rfl 3) 6

/-! ### `Formatter._link`, `Formatter._unlink` and `LINK_REGEX`

`LINK_REGEX = r"\[(.+?)\]\(.+?\)"`.  The matcher below implements exactly this
pattern as Python's `re` engine runs it, anchored at the start of the string
(`re.match`): after a literal `'['`, the lazy group grows one character at a
time (`.` matches anything but `'\n'`) until a `"]("` is found after a
non-empty group such that the remainder admits a non-empty lazy `.+?`
followed by `')'`. -/

namespace Formatter

/-- `Formatter._link`: wrap `text` as a markdown link when a URL is present
(`if not url: return text` — `None` and the empty string are both falsy). -/
def link (text : Str) (url : Option Str) : Str :=
  match url with
  | none => text
  | some u => if u = [] then text else '[' :: (text ++ ']' :: '(' :: (u ++ [')']))

/-- Does the remainder after the group's first character admit
`(rest of .+?)\)`, i.e. is there a `')'` preceded only by non-newline
characters? -/
def closeAfter : Str → Bool
  | [] => false
  | c :: rest => if c = ')' then true else decide (c ≠ '\n') && closeAfter rest

/-- Does `rest` (the text after `"]("`) admit the tail pattern `.+?\)`:
a non-empty newline-free lazy segment followed by `')'`? -/
def hasClose : Str → Bool
  | [] => false
  | c :: rest => decide (c ≠ '\n') && closeAfter rest

/-- Drop up to and including the first `')'`. -/
def qdropAfter : Str → Str
  | [] => []
  | c :: r => if c = ')' then r else qdropAfter r

/-- What remains after the lazy `.+?\)` consumes its shortest match. -/
def qdrop : Str → Str
  | [] => []
  | _ :: rest => qdropAfter rest

/-- The lazy group-1 scan of `LINK_REGEX` after the opening `'['`: `acc` holds
the group so far (reversed).  At each position, close the group at the
earliest `"]("` whose remainder completes the pattern (lazy semantics with
backtracking); `'\n'` can never be part of the group. -/
def grp : Str → Str → Option (Str × Str)
  | _, [] => none
  | acc, c :: rest =>
    if c = ']' ∧ rest.head? = some '(' ∧ acc ≠ [] ∧ hasClose rest.tail = true then
      some (acc.reverse, qdrop rest.tail)
    else if c = '\n' then none
    else grp (c :: acc) rest

/-- `re.match(LINK_REGEX, s)`: `some (group1, rest-after-match)` when the
anchored pattern matches. -/
def matchAt : Str → Option (Str × Str)
  | [] => none
  | c :: t => if c = '[' then grp [] t else none

/-- `Formatter._unlink`: `re.match(cls.LINK_REGEX, link).group(1)`.  When the
pattern does not match, `re.match` returns `None` and `.group(1)` raises
`AttributeError`, modelled as `none`. -/
def unlink (s : Str) : Option Str := (matchAt s).map Prod.fst

/-- Fuel-driven worker for `findall` (the fuel makes the recursion structural;
each step consumes at least one character, so `s.length` fuel suffices). -/
def findallAux : Nat → Str → List Str
  | 0, _ => []
  | fuel + 1, s =>
    match matchAt s with
    | some (g, rest) => g :: findallAux fuel rest
    | none =>
      match s with
      | [] => []
      | _ :: t => findallAux fuel t

/-- `re.findall(LINK_REGEX, s)`: scan left to right for non-overlapping
matches, collecting group 1 of each. -/
def findall (s : Str) : List Str := findallAux s.length s

/-- `Formatter.ARTIST_SEPARATOR = ", "`. -/
def artistSeparator : Str := (", ").data

/-- `Formatter._plain_line_from_names`: `"{} -- {} -- {}"`. -/
def plainLineFromNames (track_name : Str) (artist_names : List Str) (album_name : Str) : Str :=
  track_name ++ (" -- ").data ++ interc artistSeparator artist_names ++ (" -- ").data ++ album_name

/-- `Formatter._plain_line_from_track`. -/
def plainLineFromTrack (t : Track) : Str :=
  plainLineFromNames t.name (t.artists.map Artist.name) t.album.name

/-- The ContentKey of a live track: `cls._plain_line_from_track(track).lower()`. -/
def trackKey (t : Track) : Str := lower (plainLineFromTrack t)

/-- The artists cell of a rendered row:
`cls.ARTIST_SEPARATOR.join([cls._link(artist.name, artist.url) for ...])`. -/
def linkedArtists (t : Track) : Str :=
  interc artistSeparator (t.artists.map fun a => link a.name a.url)

/-- The ContentKey derived from a parsed row's rendered cells
(`Formatter._rows_from_prev_content`, the `key = ...` computation):
unlink the title and album, `re.findall` the artist names, join, lowercase.
`none` when `_unlink` raises. -/
def rowKey (title artists album : Str) : Option Str :=
  match unlink title, unlink album with
  | some tn, some an => some (lower (plainLineFromNames tn (findall artists) an))
  | _, _ => none

end Formatter

/-! ### Facts about the link matcher -/

/-- Name sides of the matcher conditions: no `"]("` occurs inside `s`. -/
def hasBrackParen : Str → Bool
  | [] => false
  | c :: rest => (if c = ']' then rest.head? = some '(' else false) || hasBrackParen rest

/-- Conditions under which a name round-trips through the link wrapper. -/
def cleanName (s : Str) : Prop := s ≠ [] ∧ '\n' ∉ s ∧ hasBrackParen s = false

/-- Conditions under which a URL lets the matcher consume exactly the
rendered link. -/
def cleanUrl (u : Str) : Prop := u ≠ [] ∧ '\n' ∉ u ∧ ')' ∉ u

instance (s : Str) : Decidable (cleanName s) := by unfold cleanName; infer_instance

instance (u : Str) : Decidable (cleanUrl u) := by unfold cleanUrl; infer_instance

theorem closeAfter_through (u : Str) (h : '\n' ∉ u) (r : Str) :
    Formatter.closeAfter (u ++ ')' :: r) = true := by
  induction u with
  | nil => simp [Formatter.closeAfter]
  | cons c u' ih =>
    by_cases hc : c = ')'
    · simp [Formatter.closeAfter, hc]
    · have hnl : c ≠ '\n' := fun hcontra => h (by simp [hcontra])
      have h' : '\n' ∉ u' := fun hm => h (by simp [hm])
      simp [Formatter.closeAfter, hc, hnl, ih h']

theorem hasClose_of (u : Str) (hne : u ≠ []) (h : '\n' ∉ u) (r : Str) :
    Formatter.hasClose (u ++ ')' :: r) = true := by
  cases u with
  | nil => exact absurd rfl hne
  | cons c u' =>
    have hnl : c ≠ '\n' := fun hcontra => h (by simp [hcontra])
    have h' : '\n' ∉ u' := fun hm => h (by simp [hm])
    simp [Formatter.hasClose, hnl, closeAfter_through u' h' r]

theorem qdropAfter_through (u : Str) (h : ')' ∉ u) (r : Str) :
    Formatter.qdropAfter (u ++ ')' :: r) = r := by
  induction u with
  | nil => simp [Formatter.qdropAfter]
  | cons c u' ih =>
    have hc : c ≠ ')' := fun hcontra => h (by simp [hcontra])
    have h' : ')' ∉ u' := fun hm => h (by simp [hm])
    simp [Formatter.qdropAfter, hc, ih h']

theorem qdrop_link (u : Str) (hne : u ≠ []) (h : ')' ∉ u) (r : Str) :
    Formatter.qdrop (u ++ ')' :: r) = r := by
  cases u with
  | nil => exact absurd rfl hne
  | cons c u' =>
    have h' : ')' ∉ u' := fun hm => h (by simp [hm])
    simpa [Formatter.qdrop] using qdropAfter_through u' h' r

/-- The lazy group scan walks through a clean name and closes exactly at the
junction `"]("` that the link wrapper wrote. -/
theorem grp_name (n : Str) (hnl : '\n' ∉ n) (hb : hasBrackParen n = false) :
    ∀ (acc u : Str), acc.reverse ++ n ≠ [] → Formatter.hasClose u = true →
      Formatter.grp acc (n ++ ']' :: '(' :: u) = some (acc.reverse ++ n, Formatter.qdrop u) := by
  induction n with
  | nil =>
    intro acc u hne hcl
    have hacc : acc ≠ [] := by
      intro hc; apply hne; simp [hc]
    simp [Formatter.grp, hacc, hcl]
  | cons c n' ih =>
    intro acc u hne hcl
    have hnl' : '\n' ∉ n' := fun hm => hnl (by simp [hm])
    have hcnl : c ≠ '\n' := fun hc => hnl (by simp [hc])
    have hb' : hasBrackParen n' = false := by
      unfold hasBrackParen at hb
      exact (Bool.or_eq_false_iff.mp hb).2
    have hstep : ¬(c = ']' ∧ (n' ++ ']' :: '(' :: u).head? = some '(' ∧ acc ≠ [] ∧
        Formatter.hasClose (n' ++ ']' :: '(' :: u).tail = true) := by
      rintro ⟨hc, hhead, -, -⟩
      subst hc
      unfold hasBrackParen at hb
      rcases n' with _ | ⟨d, n''⟩
      · simp at hhead
      · simp only [List.cons_append, List.head?] at hhead
        have : d = '(' := by simpa using hhead
        simp [this] at hb
    have hstep2 := ih hnl' hb' (c :: acc) u (by simp) hcl
    calc Formatter.grp acc ((c :: n') ++ ']' :: '(' :: u)
        = Formatter.grp (c :: acc) (n' ++ ']' :: '(' :: u) := by
          simp only [List.cons_append, Formatter.grp, List.append_eq]
          rw [if_neg hstep, if_neg hcnl]
      _ = some ((c :: acc).reverse ++ n', Formatter.qdrop u) := hstep2
      _ = some (acc.reverse ++ c :: n', Formatter.qdrop u) := by simp

/-- The anchored match on a rendered link: group 1 recovers the wrapped text
and the match consumes exactly the link. -/
theorem matchAt_link (n u rest : Str) (hn : cleanName n) (hu : cleanUrl u) :
    Formatter.matchAt (Formatter.link n (some u) ++ rest) =
      some (n, rest) := by
  obtain ⟨hne, hnl, hb⟩ := hn
  obtain ⟨hune, hunl, hupar⟩ := hu
  have hlink : Formatter.link n (some u) ++ rest =
      '[' :: (n ++ ']' :: '(' :: (u ++ ')' :: rest)) := by
    simp [Formatter.link, hune]
  rw [hlink]
  have hclose : Formatter.hasClose (u ++ ')' :: rest) = true := hasClose_of u hune hunl rest
  have := grp_name n hnl hb [] (u ++ ')' :: rest) (by simpa using hne) hclose
  simp only [Formatter.matchAt, if_pos rfl]
  rw [this, qdrop_link u hune hupar rest]
  simp

theorem unlink_link (n u : Str) (hn : cleanName n) (hu : cleanUrl u) :
    Formatter.unlink (Formatter.link n (some u)) = some n := by
  have := matchAt_link n u [] hn hu
  rw [List.append_nil] at this
  simp [Formatter.unlink, this]

/-! ### `findall` and its scan -/

theorem qdropAfter_length_le (r : Str) : (Formatter.qdropAfter r).length ≤ r.length := by
  induction r with
  | nil => simp [Formatter.qdropAfter]
  | cons c t ih =>
    by_cases hc : c = ')'
    · simp [Formatter.qdropAfter, hc]
    · simp only [Formatter.qdropAfter, if_neg hc]
      exact Nat.le_trans ih (by simp)

theorem qdrop_length_le (r : Str) : (Formatter.qdrop r).length ≤ r.length := by
  cases r with
  | nil => simp [Formatter.qdrop]
  | cons c t =>
    simp only [Formatter.qdrop]
    exact Nat.le_trans (qdropAfter_length_le t) (by simp)

theorem grp_rest_lt (t : Str) : ∀ (acc g rest : Str),
    Formatter.grp acc t = some (g, rest) → rest.length < t.length := by
  induction t with
  | nil => intro acc g rest h; simp [Formatter.grp] at h
  | cons c t' ih =>
    intro acc g rest h
    by_cases hcond : c = ']' ∧ t'.head? = some '(' ∧ acc ≠ [] ∧ Formatter.hasClose t'.tail = true
    · rw [Formatter.grp, if_pos hcond] at h
      obtain ⟨-, h2⟩ := Prod.mk.injEq .. ▸ Option.some.injEq .. ▸ h
      have h2 : Formatter.qdrop t'.tail = rest := by
        have := h
        simp only [Option.some.injEq, Prod.mk.injEq] at this
        exact this.2
      rw [← h2]
      have hle : (Formatter.qdrop t'.tail).length ≤ t'.tail.length := qdrop_length_le _
      have htail : t'.tail.length ≤ t'.length := by
        cases t' <;> simp
      calc (Formatter.qdrop t'.tail).length ≤ t'.length := Nat.le_trans hle htail
        _ < t'.length + 1 := Nat.lt_succ_self _
        _ = (c :: t').length := by simp
    · rw [Formatter.grp, if_neg hcond] at h
      by_cases hnl : c = '\n'
      · rw [if_pos hnl] at h; cases h
      · rw [if_neg hnl] at h
        have := ih (c :: acc) g rest h
        calc rest.length < t'.length := this
          _ < (c :: t').length := by simp

theorem matchAt_rest_lt (s g rest : Str) (h : Formatter.matchAt s = some (g, rest)) :
    rest.length < s.length := by
  cases s with
  | nil => simp [Formatter.matchAt] at h
  | cons c t =>
    by_cases hc : c = '['
    · rw [Formatter.matchAt, if_pos hc] at h
      have := grp_rest_lt t [] g rest h
      calc rest.length < t.length := this
        _ < (c :: t).length := by simp
    · rw [Formatter.matchAt, if_neg hc] at h
      cases h

theorem findallAux_nil (f : Nat) : Formatter.findallAux f [] = [] := by
  cases f <;> simp [Formatter.findallAux, Formatter.matchAt]

theorem findallAux_eq : ∀ (f1 f2 : Nat) (s : Str),
    s.length ≤ f1 → s.length ≤ f2 →
    Formatter.findallAux f1 s = Formatter.findallAux f2 s := by
  intro f1
  induction f1 with
  | zero =>
    intro f2 s hs1 _
    have : s = [] := List.length_eq_zero.mp (Nat.le_zero.mp hs1)
    subst this
    rw [findallAux_nil, findallAux_nil]
  | succ f ih =>
    intro f2 s hs1 hs2
    cases s with
    | nil => rw [findallAux_nil, findallAux_nil]
    | cons c t =>
      cases f2 with
      | zero => simp at hs2
      | succ f2' =>
        rcases hma : Formatter.matchAt (c :: t) with _ | ⟨g, rest⟩
        · simp only [Formatter.findallAux, hma]
          exact ih f2' t (Nat.le_of_succ_le_succ hs1) (Nat.le_of_succ_le_succ hs2)
        · have hlt := matchAt_rest_lt (c :: t) g rest hma
          simp only [Formatter.findallAux, hma]
          have h1 : rest.length ≤ f := by
            have : rest.length < f + 1 := Nat.lt_of_lt_of_le hlt hs1
            omega
          have h2 : rest.length ≤ f2' := by
            have : rest.length < f2' + 1 := Nat.lt_of_lt_of_le hlt hs2
            omega
          rw [ih f2' rest h1 h2]

theorem findall_nil : Formatter.findall [] = [] := rfl

theorem findall_match (s g rest : Str) (h : Formatter.matchAt s = some (g, rest)) :
    Formatter.findall s = g :: Formatter.findall rest := by
  cases s with
  | nil => simp [Formatter.matchAt] at h
  | cons c t =>
    have hlt := matchAt_rest_lt (c :: t) g rest h
    have hlt2 : rest.length < t.length + 1 := by simpa using hlt
    unfold Formatter.findall
    simp only [List.length_cons, Formatter.findallAux, h]
    rw [findallAux_eq t.length rest.length rest (by omega) (Nat.le_refl _)]

theorem findall_skip (c : Char) (t : Str) (h : Formatter.matchAt (c :: t) = none) :
    Formatter.findall (c :: t) = Formatter.findall t := by
  unfold Formatter.findall
  simp only [List.length_cons, Formatter.findallAux, h]

theorem matchAt_not_bracket (c : Char) (t : Str) (h : c ≠ '[') :
    Formatter.matchAt (c :: t) = none := by
  rw [Formatter.matchAt, if_neg h]

/-- `re.findall(LINK_REGEX, ...)` over the rendered artists cell recovers
exactly the artist names, in order. -/
theorem findall_linkedArtists : ∀ (arts : List Artist),
    (∀ a ∈ arts, cleanName a.name ∧ ∃ u, a.url = some u ∧ cleanUrl u) →
    Formatter.findall
      (interc Formatter.artistSeparator (arts.map fun a => Formatter.link a.name a.url)) =
      arts.map Artist.name := by
  intro arts
  induction arts with
  | nil => intro _; simp [interc, findall_nil]
  | cons a rest ih =>
    intro h
    obtain ⟨hn, u, hu, hcu⟩ := h a (List.mem_cons_self a rest)
    have hrest := fun b hb => h b (List.mem_cons_of_mem a hb)
    cases rest with
    | nil =>
      simp only [List.map_cons, List.map_nil, interc]
      rw [hu]
      have hm : Formatter.matchAt (Formatter.link a.name (some u)) = some (a.name, []) := by
        have := matchAt_link a.name u [] hn hcu
        rwa [List.append_nil] at this
      rw [findall_match _ _ _ hm, findall_nil]
    | cons b rest' =>
      have hstr : interc Formatter.artistSeparator
          ((a :: b :: rest').map fun x => Formatter.link x.name x.url) =
          Formatter.link a.name a.url ++ (Formatter.artistSeparator ++
            interc Formatter.artistSeparator
              ((b :: rest').map fun x => Formatter.link x.name x.url)) := by
        simp only [List.map_cons, interc, List.append_assoc]
      rw [hstr, hu]
      have hm := matchAt_link a.name u
        (Formatter.artistSeparator ++
          interc Formatter.artistSeparator ((b :: rest').map fun x => Formatter.link x.name x.url))
        hn hcu
      rw [findall_match _ _ _ hm]
      have hsep : Formatter.artistSeparator ++
          interc Formatter.artistSeparator ((b :: rest').map fun x => Formatter.link x.name x.url) =
          ',' :: ' ' :: interc Formatter.artistSeparator
            ((b :: rest').map fun x => Formatter.link x.name x.url) := rfl
      rw [hsep]
      rw [findall_skip ',' _ (matchAt_not_bracket _ _ (by decide))]
      rw [findall_skip ' ' _ (matchAt_not_bracket _ _ (by decide))]
      rw [ih hrest]
      simp [List.map_cons]

/-- C3 fails as stated: it quantifies over "every combination of present or
absent URLs", but when the track URL is absent the title cell is plain text,
`re.match(LINK_REGEX, ...)` returns `None` and `.group(1)` raises, so the
parsed-side ContentKey does not exist at all, let alone equal the live one. -/
theorem C3_counterexample :
    Formatter.rowKey
      (Formatter.link ("a").data (none : Option Str))
      (interc Formatter.artistSeparator
        [Formatter.link ("c").data (some (("v").data))])
      (Formatter.link ("b").data (some (("w").data))) = none ∧
    (none : Option Str) ≠
      some (Formatter.trackKey
        { id := [], url := none, duration_ms := 61000, name := ("a").data,
          album := { url := some (("w").data), name := ("b").data },
          artists := [{ url := some (("v").data), name := ("c").data }] }) := by
  constructor
  · decide
  · decide

/-- The ContentKey derived from a row's rendered cells equals the live
track's ContentKey, for fully-linked well-formed tracks. -/
theorem rowKey_rendered (t : Track)
    (hn : cleanName t.name) (hu : ∃ u, t.url = some u ∧ cleanUrl u)
    (han : cleanName t.album.name) (hau : ∃ u, t.album.url = some u ∧ cleanUrl u)
    (hart : ∀ a ∈ t.artists, cleanName a.name ∧ ∃ u, a.url = some u ∧ cleanUrl u) :
    Formatter.rowKey (Formatter.link t.name t.url) (Formatter.linkedArtists t)
      (Formatter.link t.album.name t.album.url) = some (Formatter.trackKey t) := by
  obtain ⟨u, hu1, hu2⟩ := hu
  obtain ⟨au, hau1, hau2⟩ := hau
  rw [hu1, hau1]
  unfold Formatter.rowKey Formatter.linkedArtists
  rw [unlink_link _ _ hn hu2, unlink_link _ _ han hau2]
  rw [findall_linkedArtists t.artists hart]
  rfl

/-- C3 (amended): the round trip does hold whenever every URL is present and
well formed (non-empty, no newline, no `')'`) and every name is non-empty,
newline-free and free of the substring `"]("`; under those conditions the
ContentKey derived by parsing a rendered row equals the ContentKey computed
from the live track.  (With an absent URL, or names/URLs outside these
conditions, the unlink step is not an inverse of the link step.) -/
theorem C3_unwrap_inverts_wrap (t : Track)
    (hn : cleanName t.name) (hu : ∃ u, t.url = some u ∧ cleanUrl u)
    (han : cleanName t.album.name) (hau : ∃ u, t.album.url = some u ∧ cleanUrl u)
    (hart : ∀ a ∈ t.artists, cleanName a.name ∧ ∃ u, a.url = some u ∧ cleanUrl u) :
    Formatter.rowKey (Formatter.link t.name t.url) (Formatter.linkedArtists t)
      (Formatter.link t.album.name t.album.url) = some (Formatter.trackKey t) :=
  rowKey_rendered t hn hu han hau hart

/-- Witness for C3's amended theorem at a concrete fully-linked track. -/
theorem C3_unwrap_inverts_wrap_witness :
    Formatter.rowKey
      (Formatter.link ("A").data (some (("u").data)))
      (Formatter.linkedArtists
        { id := [], url := some (("u").data), duration_ms := 61000, name := ("A").data,
          album := { url := some (("w").data), name := ("B").data },
          artists := [{ url := some (("v").data), name := ("C").data }] })
      (Formatter.link ("B").data (some (("w").data))) =
      some (Formatter.trackKey
        { id := [], url := some (("u").data), duration_ms := 61000, name := ("A").data,
          album := { url := some (("w").data), name := ("B").data },
          artists := [{ url := some (("v").data), name := ("C").data }] }) :=
  C3_unwrap_inverts_wrap
    { id := [], url := some (("u").data), duration_ms := 61000, name := ("A").data,
      album := { url := some (("w").data), name := ("B").data },
      artists := [{ url := some (("v").data), name := ("C").data }] }
    (by decide)
    ⟨("u").data, rfl, by decide⟩
    (by decide)
    ⟨("w").data, rfl, by decide⟩
    (by
      intro a ha
      simp only [List.mem_singleton] at ha
      subst ha
      exact ⟨by decide, ("v").data, rfl, by decide⟩)

/-! ### The cumulative ledger: rows, parsing, merging, rendering -/

/-- A ledger row: the six column values of `Formatter.cumulative`'s row dicts.
Fresh rows are created with every field `None` and immediately overwritten;
only the `Added` check `if not row[cls.ADDED]` observes the unset state, and
it treats `None` and `""` identically, so fields are modelled as strings with
`[]` for both. -/
structure Row where
  title : Str
  artists : Str
  album : Str
  length : Str
  added : Str
  removed : Str
deriving DecidableEq, Repr, Inhabited

/-- The rows dict: insertion-ordered with unique keys, as a Python dict. -/
abbrev RowMap := List (Str × Row)

/-- `rows.get(key)`: the first (only) entry with the given key. -/
def lookupRow (k : Str) : RowMap → Option Row
  | [] => none
  | (k2, r) :: rest => if k2 = k then some r else lookupRow k rest

/-- `rows[key] = row`: update in place when present (dict update keeps the
insertion position), else append at the end. -/
def setRow (k : Str) (v : Row) : RowMap → RowMap
  | [] => [(k, v)]
  | (k2, r) :: rest => if k2 = k then (k, v) :: rest else (k2, r) :: setRow k v rest

/-- The key sequence of the dict, in insertion order. -/
def keysOf (rows : RowMap) : List Str := rows.map Prod.fst

/-- Python `line[2:-2]` (trim off `"| "` and `" |"`). -/
def slice2m2 (l : Str) : Str := (l.drop 2).take (l.length - 4)

/-- Python `s.split(" | ")`: leftmost, non-overlapping scan for the
three-character separator; `acc` holds the current field reversed (the inner
match only names the tail; the guard guarantees two leading characters, so
its short arms are unreachable). -/
def splitBar : Str → Str → List Str
  | acc, [] => [acc.reverse]
  | acc, c :: rest =>
    if c = ' ' ∧ rest.head? = some '|' ∧ rest.tail.head? = some ' ' then
      match rest with
      | _ :: _ :: rest2 => acc.reverse :: splitBar [] rest2
      | [_] => []
      | [] => []
    else splitBar (c :: acc) rest

namespace URL

/-- `URL.BASE`. -/
def BASE : Str :=
  ("https://github.com/mackorone/spotify-playlist-archive/blob/master/playlists/").data

/-- `URL.plain`. -/
def plain (playlist_id : Str) : Str := BASE ++ ("plain/").data ++ playlist_id

/-- `URL.plain_history`: `plain` with `"github.com"` replaced. -/
def plainHistory (playlist_id : Str) : Str :=
  replaceStr ("github.com").data ("github.githistory.xyz").data (plain playlist_id)

/-- `URL.pretty`: spaces in the name become `"%20"`. -/
def pretty (playlist_name : Str) : Str :=
  BASE ++ ("pretty/").data ++ replaceStr ([' ']) ("%20").data playlist_name ++ (".md").data

/-- `URL.cumulative`. -/
def cumulative (playlist_name : Str) : Str :=
  BASE ++ ("cumulative/").data ++ replaceStr ([' ']) ("%20").data playlist_name ++ (".md").data

end URL

namespace Formatter

/-- `Formatter._markdown_header_lines`. -/
def markdownHeaderLines (playlist_name : Str) (playlist_url : Option Str)
    (playlist_id : Str) (playlist_description : Str) (is_cumulative : Bool)
    (export_url : Option Str) : List Str :=
  let pretty := if is_cumulative then link ("pretty").data (some (URL.pretty playlist_name))
                else ("pretty").data
  let cumul := if is_cumulative then ("cumulative").data
               else link ("cumulative").data (some (URL.cumulative playlist_name))
  let exported := match export_url with
    | some eu => if eu = [] then [] else
        (" (").data ++ link ("re-exported").data (some eu) ++ [')']
    | none => []
  [ pretty ++ (" - ").data ++ cumul ++ exported ++ (" - ").data ++
      link ("plain").data (some (URL.plain playlist_id)) ++ (" (").data ++
      link ("githistory").data (some (URL.plainHistory playlist_id)) ++ [')'],
    [],
    ("### ").data ++ link playlist_name playlist_url,
    [],
    ("> ").data ++ playlist_description,
    [] ]

/-- `divider_line` for the 6-column cumulative table:
`"---".join(["|"] * 7)`. -/
def dividerLine6 : Str := interc ("---").data (List.replicate 7 [Char.ofNat 124])

/-- `line_template.format(c1, ..., c6)` where
`line_template = " {} ".join(["|"] * 7)`. -/
def formatLine6 (c1 c2 c3 c4 c5 c6 : Str) : Str :=
  ("| ").data ++ c1 ++ (" | ").data ++ c2 ++ (" | ").data ++ c3 ++ (" | ").data ++
    c4 ++ (" | ").data ++ c5 ++ (" | ").data ++ c6 ++ (" |").data

/-- The cumulative table's column-header line. -/
def columnsLine6 : Str :=
  formatLine6 ("Title").data ("Artist(s)").data ("Album").data ("Length").data
    ("Added").data ("Removed").data

/-- `prev_lines.index(divider_line)` followed by the loop over
`range(index + 1, len(prev_lines))`: the lines after the first occurrence of
the divider, or `none` (`ValueError`) when there is no divider. -/
def afterFirst (divider : Str) : List Str → Option (List Str)
  | [] => none
  | l :: rest => if l = divider then some rest else afterFirst divider rest

/-- The body of `Formatter._rows_from_prev_content`'s line loop.  A line that
does not split into exactly 6 fields raises inside the `try` and is skipped
(`continue`); the key derivation (`rowKey`) runs outside the `try`, so an
`AttributeError` from `_unlink` propagates (`none`).  A parsed row whose
`Removed` field is falsy is primed to `today` before the next line. -/
def parseLines (today : Str) : RowMap → List Str → Option RowMap
  | rows, [] => some rows
  | rows, prev_line :: rest =>
    match splitBar [] (slice2m2 prev_line) with
    | [title, artists, album, length, added, removed] =>
      match rowKey title artists album with
      | none => none
      | some key =>
        parseLines today
          (setRow key
            { title := title, artists := artists, album := album, length := length,
              added := added, removed := if removed = [] then today else removed }
            rows)
          rest
    | _ => parseLines today rows rest

/-- `Formatter._rows_from_prev_content` (`none` = an exception propagates). -/
def rowsFromPrevContent (today : Str) (prev_content : Option Str)
    (divider_line : Str) : Option RowMap :=
  match prev_content with
  | none => some []
  | some content =>
    if content = [] then some []
    else
      match afterFirst divider_line (splitlines content) with
      | none => some []
      | some rest => parseLines today [] rest

/-- The `Added` value an existing (or missing) row contributes under
`if not row[cls.ADDED]: row[cls.ADDED] = today`. -/
def addedOf (today : Str) : Option Row → Str
  | some r => if r.added = [] then today else r.added
  | none => today

/-- The row value stored for a track in `Formatter.cumulative`'s merge loop:
title/artists/album/length re-rendered from the live track, `Added` kept
unless falsy, `Removed` forced to `""`. -/
def mergeRow (today : Str) (old : Option Row) (t : Track) (len : Str) : Row :=
  { title := link t.name t.url
  , artists := linkedArtists t
  , album := link t.album.name t.album.url
  , length := len
  , added := addedOf today old
  , removed := [] }

/-- The merge loop of `Formatter.cumulative` (`for track in playlist.tracks`):
get-or-create the row for the track's ContentKey and overwrite it.  `none`
when `_format_duration` raises. -/
def mergeTracks (today : Str) : RowMap → List Track → Option RowMap
  | rows, [] => some rows
  | rows, t :: rest =>
    match formatDuration t.duration_ms with
    | none => none
    | some len =>
      mergeTracks today
        (setRow (trackKey t) (mergeRow today (lookupRow (trackKey t) rows) t len) rows)
        rest

/-- The comparison `sorted(rows.items())` uses: by key. -/
def keyLe (a b : Str × Row) : Prop := strLe a.1 b.1 = true

instance : DecidableRel keyLe := fun a b => by unfold keyLe; infer_instance

/-- `sorted(rows.items())`: dict items sorted by key (keys are unique, so the
row values are never compared).  Insertion sort is stable, like Python's
sort, and therefore computes the same ordering. -/
def sortRows (rows : RowMap) : RowMap :=
  List.insertionSort keyLe rows

/-- The row map `Formatter.cumulative` holds right before rendering: parsed
previous rows merged with the live playlist. -/
def cumulativeRows (today : Str) (prev_content : Option Str)
    (playlist : Playlist) : Option RowMap :=
  match rowsFromPrevContent today prev_content dividerLine6 with
  | none => none
  | some rows0 => mergeTracks today rows0 playlist.tracks

/-- One rendered data row:
`line_template.format(*[row[column] for column in columns])`. -/
def rowLine (kr : Str × Row) : Str :=
  formatLine6 kr.2.title kr.2.artists kr.2.album kr.2.length kr.2.added kr.2.removed

/-- `Formatter.cumulative` (the argument `today` stands for
`now.strftime("%Y-%m-%d")`; `export_url` for `export_playlist.url`). -/
def cumulative (today : Str) (prev_content : Option Str) (playlist_id : Str)
    (playlist : Playlist) (export_url : Option Str) : Option Str :=
  match cumulativeRows today prev_content playlist with
  | none => none
  | some rows =>
    some (interc ['\n']
      ((markdownHeaderLines playlist.name playlist.url playlist_id
          playlist.description true export_url ++ [columnsLine6, dividerLine6]) ++
        (sortRows rows).map rowLine))

end Formatter

/-! ### C2: the parser's failure policy -/

/-- A post-divider line the parser survives: either it does not split into
exactly 6 fields (and is skipped), or its title and album cells both unlink. -/
def lineOkB (line : Str) : Bool :=
  match splitBar [] (slice2m2 line) with
  | [t, _, al, _, _, _] => (Formatter.unlink t).isSome && (Formatter.unlink al).isSome
  | _ => true

/-- Propositional form of `lineOkB`. -/
def lineOk (line : Str) : Prop := lineOkB line = true

instance (line : Str) : Decidable (lineOk line) := by unfold lineOk; infer_instance

/-- C2 fails as stated: not every malformed data line is merely discarded.
A line that does split into exactly 6 fields but whose title is not a
markdown link (here `"| a | b | c | d | e | f |"`) reaches the key
derivation, which runs outside the `try`, and `_unlink`'s
`re.match(...).group(1)` raises — the parse (and with it the whole merge)
aborts instead of dropping the row. -/
theorem C2_counterexample :
    Formatter.rowsFromPrevContent ("2024-01-01").data
      (some (Formatter.dividerLine6 ++ '\n' :: ("| a | b | c | d | e | f |").data))
      Formatter.dividerLine6 = none ∧
    Formatter.cumulative ("2024-01-01").data
      (some (Formatter.dividerLine6 ++ '\n' :: ("| a | b | c | d | e | f |").data))
      ("p").data { id := ("p").data, url := none, name := [], description := [], tracks := [] }
      none = none := by
  constructor
  · decide
  · decide

/-- C2 (amended): lines that fail the 6-field split are silently discarded
without an exception, and with a previous text absent or divider-less the
parser returns cleanly; but a data line that does split into exactly 6 fields
whose title or album cell is not a markdown link makes `_unlink` raise, so
the no-raise guarantee only holds when every 6-field line carries
link-shaped title and album cells. -/
theorem C2_parse_failure_policy :
    (∀ today rows line rest, (splitBar [] (slice2m2 line)).length ≠ 6 →
      Formatter.parseLines today rows (line :: rest) = Formatter.parseLines today rows rest) ∧
    (∀ today prev,
      (∀ content, prev = some content →
        ∀ rest, Formatter.afterFirst Formatter.dividerLine6 (splitlines content) = some rest →
        ∀ line ∈ rest, lineOk line) →
      ∃ rows, Formatter.rowsFromPrevContent today prev Formatter.dividerLine6 = some rows) := by
  constructor
  · intro today rows line rest hlen
    rcases hsplit : splitBar [] (slice2m2 line) with
      _ | ⟨a, _ | ⟨b, _ | ⟨c, _ | ⟨d, _ | ⟨e, _ | ⟨f, _ | ⟨g, tl⟩⟩⟩⟩⟩⟩⟩ <;>
      simp only [Formatter.parseLines, hsplit]
    exact absurd (by simp [hsplit]) hlen
  · intro today prev h
    match prev with
    | none => exact ⟨[], rfl⟩
    | some content =>
      by_cases hc : content = []
      · subst hc
        exact ⟨[], rfl⟩
      · rcases hafter : Formatter.afterFirst Formatter.dividerLine6 (splitlines content) with
          _ | rest
        · exact ⟨[], by simp [Formatter.rowsFromPrevContent, hc, hafter]⟩
        · have hlines := h content rfl rest hafter
          suffices hsuff : ∀ (lines : List Str) (rows : RowMap), (∀ line ∈ lines, lineOk line) →
              ∃ out, Formatter.parseLines today rows lines = some out by
            obtain ⟨out, hout⟩ := hsuff rest [] hlines
            exact ⟨out, by simp [Formatter.rowsFromPrevContent, hc, hafter, hout]⟩
          intro lines
          induction lines with
          | nil => intro rows _; exact ⟨rows, rfl⟩
          | cons line rest' ih =>
            intro rows hall
            have hline := hall line (List.mem_cons_self line rest')
            have hrest := fun l hl => hall l (List.mem_cons_of_mem line hl)
            unfold lineOk lineOkB at hline
            rcases hsplit : splitBar [] (slice2m2 line) with
              _ | ⟨a, _ | ⟨b, _ | ⟨c, _ | ⟨d, _ | ⟨e, _ | ⟨f, _ | ⟨g, tl⟩⟩⟩⟩⟩⟩⟩ <;>
              rw [hsplit] at hline <;>
              simp only [Formatter.parseLines, hsplit]
            · exact ih _ hrest
            · exact ih _ hrest
            · exact ih _ hrest
            · exact ih _ hrest
            · exact ih _ hrest
            · exact ih _ hrest
            · obtain ⟨ht, hal⟩ := by simpa using hline
              rcases hkt : Formatter.unlink a with _ | tn
              · rw [hkt] at ht; simp at ht
              · rcases hka : Formatter.unlink c with _ | an
                · rw [hka] at hal; simp at hal
                · have hkey : Formatter.rowKey a b c =
                      some (lower (Formatter.plainLineFromNames tn (Formatter.findall b) an)) := by
                    unfold Formatter.rowKey
                    rw [hkt, hka]
                  rw [hkey]
                  exact ih _ hrest
            · exact ih _ hrest

/-- Witness for C2's amended theorem: a skipped short line and a clean parse
at concrete inputs. -/
theorem C2_parse_failure_policy_witness :
    (Formatter.parseLines ("2024-01-01").data [] (("garbage").data :: []) =
      Formatter.parseLines ("2024-01-01").data [] []) ∧
    ∃ rows, Formatter.rowsFromPrevContent ("2024-01-01").data
      (some (Formatter.dividerLine6 ++ '\n' :: ("not a row at all").data))
      Formatter.dividerLine6 = some rows :=
  ⟨C2_parse_failure_policy.1 ("2024-01-01").data [] ("garbage").data [] (by decide),
   C2_parse_failure_policy.2 ("2024-01-01").data
     (some (Formatter.dividerLine6 ++ '\n' :: ("not a row at all").data))
     (by
       intro content hcontent rest hrest line hline
       cases hcontent
       have hconc : Formatter.afterFirst Formatter.dividerLine6
           (splitlines (Formatter.dividerLine6 ++ '\n' :: ("not a row at all").data)) =
           some [("not a row at all").data] := by decide
       rw [hconc] at hrest
       have hr := Option.some.inj hrest
       subst hr
       simp only [List.mem_singleton] at hline
       subst hline
       decide)⟩

/-! ### Dictionary lemmas -/

theorem lookupRow_setRow_self (k : Str) (v : Row) (rows : RowMap) :
    lookupRow k (setRow k v rows) = some v := by
  induction rows with
  | nil => simp [setRow, lookupRow]
  | cons p rest ih =>
    obtain ⟨k2, r⟩ := p
    by_cases hk : k2 = k
    · simp [setRow, hk, lookupRow]
    · simp [setRow, hk, lookupRow, ih]

theorem lookupRow_setRow_other (k k2 : Str) (v : Row) (rows : RowMap) (h : k2 ≠ k) :
    lookupRow k2 (setRow k v rows) = lookupRow k2 rows := by
  induction rows with
  | nil => simp [setRow, lookupRow, Ne.symm h]
  | cons p rest ih =>
    obtain ⟨k3, r⟩ := p
    by_cases hk : k3 = k
    · subst hk
      simp [setRow, lookupRow, Ne.symm h]
    · simp [setRow, hk, lookupRow, ih]

theorem keysOf_setRow_mem (k : Str) (v : Row) (rows : RowMap) (h : k ∈ keysOf rows) :
    keysOf (setRow k v rows) = keysOf rows := by
  induction rows with
  | nil => simp [keysOf] at h
  | cons p rest ih =>
    obtain ⟨k2, r⟩ := p
    by_cases hk : k2 = k
    · simp [setRow, hk, keysOf]
    · have h2 : k ∈ keysOf rest := by
        simp only [keysOf, List.map_cons, List.mem_cons] at h
        rcases h with h1 | h1
        · exact absurd h1.symm hk
        · exact h1
      have := ih h2
      simp only [setRow, if_neg hk, keysOf, List.map_cons] at this ⊢
      rw [this]

theorem keysOf_setRow_notmem (k : Str) (v : Row) (rows : RowMap) (h : k ∉ keysOf rows) :
    keysOf (setRow k v rows) = keysOf rows ++ [k] := by
  induction rows with
  | nil => simp [setRow, keysOf]
  | cons p rest ih =>
    obtain ⟨k2, r⟩ := p
    have hne : k2 ≠ k := by
      intro hc
      apply h
      simp only [keysOf, List.map_cons, List.mem_cons]
      exact Or.inl hc.symm
    have h2 : k ∉ keysOf rest := by
      intro hc
      apply h
      simp only [keysOf, List.map_cons, List.mem_cons]
      exact Or.inr hc
    have := ih h2
    simp only [setRow, if_neg hne, keysOf, List.map_cons] at this ⊢
    rw [this]
    simp

theorem keysOf_setRow_nodup (k : Str) (v : Row) (rows : RowMap)
    (h : (keysOf rows).Nodup) : (keysOf (setRow k v rows)).Nodup := by
  by_cases hk : k ∈ keysOf rows
  · rwa [keysOf_setRow_mem k v rows hk]
  · rw [keysOf_setRow_notmem k v rows hk]
    refine List.Nodup.append h (List.nodup_singleton k) ?_
    simpa [List.disjoint_singleton] using hk

theorem lookupRow_isSome_iff_mem (k : Str) (rows : RowMap) :
    (lookupRow k rows).isSome ↔ k ∈ keysOf rows := by
  induction rows with
  | nil => simp [lookupRow, keysOf]
  | cons p rest ih =>
    obtain ⟨k2, r⟩ := p
    by_cases hk : k2 = k
    · simp [lookupRow, hk, keysOf]
    · simp [lookupRow, hk, keysOf, ih, Ne.symm hk]

theorem lookupRow_none_of_notmem (k : Str) (rows : RowMap) (h : k ∉ keysOf rows) :
    lookupRow k rows = none := by
  rcases hl : lookupRow k rows with _ | r
  · rfl
  · exact absurd ((lookupRow_isSome_iff_mem k rows).mp (by simp [hl])) h

/-! ### Merge-loop characterization -/

/-- The last track in the list whose ContentKey is `k` (later iterations of
the merge loop overwrite earlier ones). -/
def lastMatch (k : Str) : List Track → Option Track
  | [] => none
  | t :: rest =>
    match lastMatch k rest with
    | some t2 => some t2
    | none => if Formatter.trackKey t = k then some t else none

theorem lastMatch_cons_some (k : Str) (t : Track) (rest : List Track) (t2 : Track)
    (h : lastMatch k rest = some t2) : lastMatch k (t :: rest) = some t2 := by
  simp only [lastMatch, h]

theorem lastMatch_cons_none (k : Str) (t : Track) (rest : List Track)
    (h : lastMatch k rest = none) :
    lastMatch k (t :: rest) = if Formatter.trackKey t = k then some t else none := by
  simp only [lastMatch, h]

theorem lastMatch_of_exists (k : Str) : ∀ (tracks : List Track),
    (∃ t ∈ tracks, Formatter.trackKey t = k) → ∃ t2, lastMatch k tracks = some t2 := by
  intro tracks
  induction tracks with
  | nil => rintro ⟨t, ht, -⟩; simp at ht
  | cons t rest ih =>
    rintro ⟨t2, ht2, hk⟩
    rcases hlm : lastMatch k rest with _ | t3
    · rcases List.mem_cons.mp ht2 with h1 | h1
      · subst h1
        exact ⟨t2, by rw [lastMatch_cons_none k t2 rest hlm, if_pos hk]⟩
      · obtain ⟨t4, ht4⟩ := ih ⟨t2, h1, hk⟩
        rw [ht4] at hlm
        cases hlm
    · exact ⟨t3, lastMatch_cons_some k t rest t3 hlm⟩

theorem mergeTracks_nil (today : Str) (rows : RowMap) :
    Formatter.mergeTracks today rows [] = some rows := rfl

theorem mergeTracks_cons_none (today : Str) (rows : RowMap) (t : Track) (rest : List Track)
    (hfd : Formatter.formatDuration t.duration_ms = none) :
    Formatter.mergeTracks today rows (t :: rest) = none := by
  simp only [Formatter.mergeTracks, hfd]

theorem mergeTracks_cons_some (today : Str) (rows : RowMap) (t : Track) (rest : List Track)
    (len : Str) (hfd : Formatter.formatDuration t.duration_ms = some len) :
    Formatter.mergeTracks today rows (t :: rest) =
      Formatter.mergeTracks today
        (setRow (Formatter.trackKey t)
          (Formatter.mergeRow today (lookupRow (Formatter.trackKey t) rows) t len) rows)
        rest := by
  simp only [Formatter.mergeTracks, hfd]

theorem mergeRow_congr_old (today : Str) (o1 o2 : Option Row) (t : Track) (len : Str)
    (h : Formatter.addedOf today o1 = Formatter.addedOf today o2) :
    Formatter.mergeRow today o1 t len = Formatter.mergeRow today o2 t len := by
  unfold Formatter.mergeRow
  rw [h]

theorem addedOf_eq_today_or_ne (today : Str) (old : Option Row) :
    Formatter.addedOf today old = today ∨ Formatter.addedOf today old ≠ [] := by
  rcases old with _ | r
  · exact Or.inl rfl
  · by_cases hr : r.added = []
    · exact Or.inl (by simp [Formatter.addedOf, hr])
    · refine Or.inr ?_
      simp [Formatter.addedOf, hr]

theorem if_stable_today (today A : Str) (h : A = today ∨ A ≠ []) :
    (if A = [] then today else A) = A := by
  by_cases hA : A = []
  · rw [if_pos hA]
    rcases h with h1 | h1
    · rw [hA]
      exact (h1.symm.trans hA).symm ▸ rfl
    · exact absurd hA h1
  · rw [if_neg hA]

theorem addedOf_mergeRow (today : Str) (old : Option Row) (t : Track) (len : Str) :
    Formatter.addedOf today (some (Formatter.mergeRow today old t len)) =
      Formatter.addedOf today old := by
  show (if Formatter.addedOf today old = [] then today else Formatter.addedOf today old) =
    Formatter.addedOf today old
  exact if_stable_today today _ (addedOf_eq_today_or_ne today old)

/-- What the merge loop stores for each key: the value rendered from the last
matching track (with `Added` taken from the pre-merge row when non-empty),
and untouched rows for keys no current track maps to. -/
theorem mergeTracks_char (today : Str) : ∀ (tracks : List Track) (rows out : RowMap),
    Formatter.mergeTracks today rows tracks = some out →
    ∀ k, (lastMatch k tracks = none → lookupRow k out = lookupRow k rows) ∧
      (∀ t, lastMatch k tracks = some t →
        ∃ len, Formatter.formatDuration t.duration_ms = some len ∧
          lookupRow k out = some (Formatter.mergeRow today (lookupRow k rows) t len)) := by
  intro tracks
  induction tracks with
  | nil =>
    intro rows out h k
    rw [mergeTracks_nil] at h
    have hro := Option.some.inj h
    subst hro
    exact ⟨fun _ => rfl, fun t ht => by simp [lastMatch] at ht⟩
  | cons t rest ih =>
    intro rows out h k
    rcases hfd : Formatter.formatDuration t.duration_ms with _ | len
    · rw [mergeTracks_cons_none today rows t rest hfd] at h
      exact Option.noConfusion h
    · rw [mergeTracks_cons_some today rows t rest len hfd] at h
      set kt := Formatter.trackKey t with hkt
      set rows2 := setRow kt (Formatter.mergeRow today (lookupRow kt rows) t len) rows
        with hrows2
      have hadded : Formatter.addedOf today (lookupRow k rows2) =
          Formatter.addedOf today (lookupRow k rows) := by
        by_cases hk : kt = k
        · subst hk
          rw [hrows2, lookupRow_setRow_self, addedOf_mergeRow]
        · rw [hrows2, lookupRow_setRow_other kt k _ rows (Ne.symm hk)]
      constructor
      · intro hlm
        rcases hlm2 : lastMatch k rest with _ | t2
        · rw [lastMatch_cons_none k t rest hlm2] at hlm
          by_cases hk : kt = k
          · rw [← hkt, if_pos hk] at hlm
            exact Option.noConfusion hlm
          · have := (ih rows2 out h k).1 hlm2
            rw [this, hrows2, lookupRow_setRow_other kt k _ rows (Ne.symm hk)]
        · rw [lastMatch_cons_some k t rest t2 hlm2] at hlm
          exact Option.noConfusion hlm
      · intro t3 hlm
        rcases hlm2 : lastMatch k rest with _ | t2
        · rw [lastMatch_cons_none k t rest hlm2] at hlm
          by_cases hk : Formatter.trackKey t = k
          · rw [if_pos hk] at hlm
            have ht3 : t = t3 := Option.some.inj hlm
            subst ht3
            have hlook := (ih rows2 out h k).1 hlm2
            refine ⟨len, hfd, ?_⟩
            have hkk : kt = k := by rw [hkt]; exact hk
            rw [hlook, hrows2]
            rw [hkk, lookupRow_setRow_self]
          · rw [if_neg hk] at hlm
            exact Option.noConfusion hlm
        · rw [lastMatch_cons_some k t rest t2 hlm2] at hlm
          have ht3 : t2 = t3 := Option.some.inj hlm
          subst ht3
          obtain ⟨len2, hfd2, hlook⟩ := (ih rows2 out h k).2 t2 hlm2
          exact ⟨len2, hfd2, by rw [hlook, mergeRow_congr_old today _ _ t2 len2 hadded]⟩

/-- Merging never removes a key; when every track key is already present the
key sequence is unchanged. -/
theorem mergeTracks_keys (today : Str) : ∀ (tracks : List Track) (rows out : RowMap),
    Formatter.mergeTracks today rows tracks = some out →
    (∀ t ∈ tracks, Formatter.trackKey t ∈ keysOf rows) →
    keysOf out = keysOf rows := by
  intro tracks
  induction tracks with
  | nil =>
    intro rows out h _
    rw [mergeTracks_nil] at h
    have hro := Option.some.inj h
    subst hro
    rfl
  | cons t rest ih =>
    intro rows out h hmem
    rcases hfd : Formatter.formatDuration t.duration_ms with _ | len
    · rw [mergeTracks_cons_none today rows t rest hfd] at h
      exact Option.noConfusion h
    · rw [mergeTracks_cons_some today rows t rest len hfd] at h
      have hkeys : keysOf (setRow (Formatter.trackKey t)
          (Formatter.mergeRow today (lookupRow (Formatter.trackKey t) rows) t len) rows) =
          keysOf rows :=
        keysOf_setRow_mem _ _ rows (hmem t (List.mem_cons_self t rest))
      have := ih _ out h (by
        intro t2 ht2
        rw [hkeys]
        exact hmem t2 (List.mem_cons_of_mem t ht2))
      rw [this, hkeys]

/-- Every row of a merge that starts from rows whose `Added` is `today`
(in particular from the empty map) carries `Added = today`. -/
theorem mergeTracks_added_today (today : Str) : ∀ (tracks : List Track) (rows out : RowMap),
    (∀ k r, lookupRow k rows = some r → r.added = today) →
    Formatter.mergeTracks today rows tracks = some out →
    ∀ k r, lookupRow k out = some r → r.added = today := by
  intro tracks
  induction tracks with
  | nil =>
    intro rows out hinv h
    rw [mergeTracks_nil] at h
    have hro := Option.some.inj h
    subst hro
    exact hinv
  | cons t rest ih =>
    intro rows out hinv h
    rcases hfd : Formatter.formatDuration t.duration_ms with _ | len
    · rw [mergeTracks_cons_none today rows t rest hfd] at h
      exact Option.noConfusion h
    · rw [mergeTracks_cons_some today rows t rest len hfd] at h
      refine ih _ out ?_ h
      intro k r hl
      by_cases hk : Formatter.trackKey t = k
      · subst hk
        rw [lookupRow_setRow_self] at hl
        have hr := Option.some.inj hl
        subst hr
        show Formatter.addedOf today (lookupRow (Formatter.trackKey t) rows) = today
        rcases hold : lookupRow (Formatter.trackKey t) rows with _ | r0
        · rfl
        · have hr0 := hinv _ r0 hold
          show (if r0.added = [] then today else r0.added) = today
          rw [hr0]
          split <;> rfl
      · rw [lookupRow_setRow_other _ _ _ _ (Ne.symm hk)] at hl
        exact hinv k r hl

/-- C10: in merge step 2, for every key some current track maps to, the
stored row is re-rendered from the (last) live track: title, artists, album
and length are overwritten with freshly rendered values and `Removed` is
forced to `""`, while `Added` is overwritten with `today` if and only if it
was empty beforehand (row newly created, or parsed with an empty `Added`);
rows whose key no current track maps to are untouched. -/
theorem C10_merge_frame_effect :
    ∀ (today : Str) (rows : RowMap) (tracks : List Track) (out : RowMap),
    Formatter.mergeTracks today rows tracks = some out →
    (∀ k, lastMatch k tracks = none → lookupRow k out = lookupRow k rows) ∧
    (∀ k t, lastMatch k tracks = some t →
      ∃ len, Formatter.formatDuration t.duration_ms = some len ∧
      ∃ r2, lookupRow k out = some r2 ∧
        r2.title = Formatter.link t.name t.url ∧
        r2.artists = Formatter.linkedArtists t ∧
        r2.album = Formatter.link t.album.name t.album.url ∧
        r2.length = len ∧
        r2.removed = [] ∧
        ((lookupRow k rows = none ∨ (∃ r, lookupRow k rows = some r ∧ r.added = [])) →
          r2.added = today) ∧
        (∀ r, lookupRow k rows = some r → r.added ≠ [] → r2.added = r.added)) := by
  intro today rows tracks out h
  constructor
  · intro k hk
    exact (mergeTracks_char today tracks rows out h k).1 hk
  · intro k t hk
    obtain ⟨len, hfd, hlook⟩ := (mergeTracks_char today tracks rows out h k).2 t hk
    refine ⟨len, hfd, Formatter.mergeRow today (lookupRow k rows) t len, hlook,
      rfl, rfl, rfl, rfl, rfl, ?_, ?_⟩
    · rintro (hnone | ⟨r, hr, hre⟩)
      · show Formatter.addedOf today (lookupRow k rows) = today
        rw [hnone]
        rfl
      · show Formatter.addedOf today (lookupRow k rows) = today
        rw [hr]
        show (if r.added = [] then today else r.added) = today
        rw [if_pos hre]
    · intro r hr hne
      show Formatter.addedOf today (lookupRow k rows) = r.added
      rw [hr]
      show (if r.added = [] then today else r.added) = r.added
      rw [if_neg hne]

/-- Witness for C10 at a concrete merge: an unmatched key is untouched and a
matched key gets the re-rendered row with `Added = today`. -/
theorem C10_merge_frame_effect_witness :
    lookupRow ("zz").data
        [(("a -- b -- c").data,
          ({ title := ("[a](u)").data, artists := ("[b](v)").data,
             album := ("[c](w)").data, length := ("1:01").data,
             added := ("2024-01-01").data, removed := [] } : Row))] =
      lookupRow ("zz").data ([] : RowMap) :=
  (C10_merge_frame_effect ("2024-01-01").data []
    [{ id := [], url := some ("u").data, duration_ms := 61000, name := ("a").data,
       album := { url := some ("w").data, name := ("c").data },
       artists := [{ url := some ("v").data, name := ("b").data }] }]
    [(("a -- b -- c").data,
      { title := ("[a](u)").data, artists := ("[b](v)").data,
        album := ("[c](w)").data, length := ("1:01").data,
        added := ("2024-01-01").data, removed := [] })]
    (by decide)).1 ("zz").data (by decide)

/-- A sequence of merges, each with its own date and fetched track list,
starting from a given row map (`Formatter.cumulative`'s step 2 applied run
after run). -/
def mergeSteps : List (Str × List Track) → RowMap → Option RowMap
  | [], rows => some rows
  | (today, tracks) :: rest, rows =>
    match Formatter.mergeTracks today rows tracks with
    | none => none
    | some mid => mergeSteps rest mid

theorem mergeSteps_cons_none (today : Str) (tracks : List Track)
    (rest : List (Str × List Track)) (rows : RowMap)
    (h : Formatter.mergeTracks today rows tracks = none) :
    mergeSteps ((today, tracks) :: rest) rows = none := by
  simp only [mergeSteps, h]

theorem mergeSteps_cons_some (today : Str) (tracks : List Track)
    (rest : List (Str × List Track)) (rows mid : RowMap)
    (h : Formatter.mergeTracks today rows tracks = some mid) :
    mergeSteps ((today, tracks) :: rest) rows = mergeSteps rest mid := by
  simp only [mergeSteps, h]

/-- C6: once a row's `Added` is set to a (non-empty) date, no later merge in
which some fetched track maps to that row's ContentKey ever changes it. -/
theorem C6_added_is_stable :
    ∀ (steps : List (Str × List Track)) (rows0 final : RowMap) (k : Str) (r0 : Row),
    mergeSteps steps rows0 = some final →
    lookupRow k rows0 = some r0 → r0.added ≠ [] →
    (∀ s ∈ steps, ∃ t ∈ s.2, Formatter.trackKey t = k) →
    ∃ rf, lookupRow k final = some rf ∧ rf.added = r0.added := by
  intro steps
  induction steps with
  | nil =>
    intro rows0 final k r0 h hl _ _
    have hro := Option.some.inj h
    subst hro
    exact ⟨r0, hl, rfl⟩
  | cons s rest ih =>
    intro rows0 final k r0 h hl hne hall
    obtain ⟨d, ts⟩ := s
    rcases hmt : Formatter.mergeTracks d rows0 ts with _ | mid
    · rw [mergeSteps_cons_none d ts rest rows0 hmt] at h
      exact Option.noConfusion h
    · rw [mergeSteps_cons_some d ts rest rows0 mid hmt] at h
      obtain ⟨t2, ht2⟩ := lastMatch_of_exists k ts (hall (d, ts) (List.mem_cons_self _ rest))
      obtain ⟨len, hfd, hlook⟩ := (mergeTracks_char d ts rows0 mid hmt k).2 t2 ht2
      have hadded : (Formatter.mergeRow d (lookupRow k rows0) t2 len).added = r0.added := by
        show Formatter.addedOf d (lookupRow k rows0) = r0.added
        rw [hl]
        show (if r0.added = [] then d else r0.added) = r0.added
        rw [if_neg hne]
      obtain ⟨rf, hrf, hrfa⟩ := ih mid final k (Formatter.mergeRow d (lookupRow k rows0) t2 len)
        h hlook (by rw [hadded]; exact hne)
        (fun s2 hs2 => hall s2 (List.mem_cons_of_mem _ hs2))
      exact ⟨rf, hrf, by rw [hrfa, hadded]⟩

/-- Witness for C6 over two concrete merges of the same single-track
playlist: the row keeps `Added = "2024-01-01"`. -/
theorem C6_added_is_stable_witness :
    ∃ rf, lookupRow ("a -- b -- c").data
        [(("a -- b -- c").data,
          ({ title := ("[a](u)").data, artists := ("[b](v)").data,
             album := ("[c](w)").data, length := ("1:01").data,
             added := ("2024-01-01").data, removed := [] } : Row))] = some rf ∧
      rf.added = ("2024-01-01").data :=
  C6_added_is_stable
    [(("2024-01-02").data,
      [{ id := [], url := some ("u").data, duration_ms := 61000, name := ("a").data,
         album := { url := some ("w").data, name := ("c").data },
         artists := [{ url := some ("v").data, name := ("b").data }] }])]
    [(("a -- b -- c").data,
      { title := ("[a](u)").data, artists := ("[b](v)").data,
        album := ("[c](w)").data, length := ("1:01").data,
        added := ("2024-01-01").data, removed := ("2024-01-02").data })]
    [(("a -- b -- c").data,
      { title := ("[a](u)").data, artists := ("[b](v)").data,
        album := ("[c](w)").data, length := ("1:01").data,
        added := ("2024-01-01").data, removed := [] })]
    ("a -- b -- c").data
    { title := ("[a](u)").data, artists := ("[b](v)").data,
      album := ("[c](w)").data, length := ("1:01").data,
      added := ("2024-01-01").data, removed := ("2024-01-02").data }
    (by decide) (by decide) (by decide)
    (by
      intro s hs
      simp only [List.mem_singleton] at hs
      subst hs
      exact ⟨_, List.mem_singleton.mpr rfl, by decide⟩)

theorem afterFirst_none (divider : Str) : ∀ (lines : List Str),
    divider ∉ lines → Formatter.afterFirst divider lines = none := by
  intro lines
  induction lines with
  | nil => intro _; rfl
  | cons l rest ih =>
    intro h
    have hne : l ≠ divider := fun hc => h (by simp [hc])
    have h2 : divider ∉ rest := fun hc => h (List.mem_cons_of_mem l hc)
    rw [Formatter.afterFirst, if_neg hne, ih h2]

/-- C7: previous text that is absent (or empty, which Python treats as
falsy) or contains no divider line parses to the empty row map; the merge
then behaves exactly as a first run, and every current track's row carries
`Added = today`. -/
theorem C7_no_divider_is_first_run :
    ∀ (today : Str) (prev : Option Str) (playlist_id : Str) (playlist : Playlist)
      (export_url : Option Str),
    (∀ content, prev = some content → Formatter.dividerLine6 ∉ splitlines content) →
    Formatter.rowsFromPrevContent today prev Formatter.dividerLine6 = some [] ∧
    Formatter.cumulative today prev playlist_id playlist export_url =
      Formatter.cumulative today none playlist_id playlist export_url ∧
    (∀ rows, Formatter.cumulativeRows today prev playlist = some rows →
      ∀ t ∈ playlist.tracks, ∃ r, lookupRow (Formatter.trackKey t) rows = some r ∧
        r.added = today) := by
  intro today prev playlist_id playlist export_url h
  have hparse : Formatter.rowsFromPrevContent today prev Formatter.dividerLine6 = some [] := by
    match prev with
    | none => rfl
    | some content =>
      by_cases hc : content = []
      · subst hc
        rfl
      · have hdiv := h content rfl
        rw [Formatter.rowsFromPrevContent, if_neg hc,
          afterFirst_none Formatter.dividerLine6 (splitlines content) hdiv]
  have hrows : Formatter.cumulativeRows today prev playlist =
      Formatter.mergeTracks today [] playlist.tracks := by
    rw [Formatter.cumulativeRows, hparse]
  have hrows0 : Formatter.cumulativeRows today none playlist =
      Formatter.mergeTracks today [] playlist.tracks := rfl
  refine ⟨hparse, ?_, ?_⟩
  · rw [Formatter.cumulative, Formatter.cumulative, hrows, hrows0]
  · intro rows hr t ht
    rw [hrows] at hr
    obtain ⟨t2, ht2⟩ := lastMatch_of_exists (Formatter.trackKey t) playlist.tracks
      ⟨t, ht, rfl⟩
    obtain ⟨len, hfd, hlook⟩ :=
      (mergeTracks_char today playlist.tracks [] rows hr (Formatter.trackKey t)).2 t2 ht2
    refine ⟨_, hlook, ?_⟩
    exact mergeTracks_added_today today playlist.tracks [] rows
      (by intro k r hl; cases hl) hr (Formatter.trackKey t) _ hlook

/-- Witness for C7 at a divider-less previous text and one-track playlist. -/
theorem C7_no_divider_is_first_run_witness :
    Formatter.rowsFromPrevContent ("2024-01-01").data (some ("hello world").data)
      Formatter.dividerLine6 = some [] ∧
    Formatter.cumulative ("2024-01-01").data (some ("hello world").data) ("p").data
      ({ id := ("p").data, url := some ("pu").data, name := ("n").data,
         description := ("d").data,
         tracks := [{ id := [], url := some ("u").data, duration_ms := 61000,
                      name := ("a").data,
                      album := { url := some ("w").data, name := ("c").data },
                      artists := [{ url := some ("v").data, name := ("b").data }] }] }) none =
    Formatter.cumulative ("2024-01-01").data none ("p").data
      ({ id := ("p").data, url := some ("pu").data, name := ("n").data,
         description := ("d").data,
         tracks := [{ id := [], url := some ("u").data, duration_ms := 61000,
                      name := ("a").data,
                      album := { url := some ("w").data, name := ("c").data },
                      artists := [{ url := some ("v").data, name := ("b").data }] }] }) none := by
  have hmain := C7_no_divider_is_first_run ("2024-01-01").data (some ("hello world").data)
    ("p").data
    ({ id := ("p").data, url := some ("pu").data, name := ("n").data,
       description := ("d").data,
       tracks := [{ id := [], url := some ("u").data, duration_ms := 61000,
                    name := ("a").data,
                    album := { url := some ("w").data, name := ("c").data },
                    artists := [{ url := some ("v").data, name := ("b").data }] }] }) none
    (by
      intro content hc
      cases hc
      decide)
  exact ⟨hmain.1, hmain.2.1⟩

/-! ### Reduction lemmas for the text scanners -/

theorem splitlinesAux_newline (acc rest : Str) :
    splitlinesAux acc ('\n' :: rest) = acc.reverse :: splitlinesAux [] rest := by
  rw [splitlinesAux.eq_def]
  split
  · rename_i heq
    cases heq
  · rename_i acc2 c2 rest2 heq
    injection heq with h1 h2
    subst h1
    subst h2
    rw [if_neg (by simp), if_pos (by decide)]

theorem splitlinesAux_nonbreak (acc : Str) (c : Char) (rest : Str)
    (h : isBreakChar c = false) :
    splitlinesAux acc (c :: rest) = splitlinesAux (c :: acc) rest := by
  have hcr : c ≠ '\r' := by
    intro hc
    subst hc
    exact absurd h (by decide)
  rw [splitlinesAux.eq_def]
  split
  · rename_i heq
    cases heq
  · rename_i acc2 c2 rest2 heq
    injection heq with h1 h2
    subst h1
    subst h2
    rw [if_neg (fun hand => hcr hand.1), if_neg (by simp [h])]

theorem splitlinesAux_through (l : Str) (hl : ∀ c ∈ l, isBreakChar c = false) :
    ∀ (acc t : Str), splitlinesAux acc (l ++ t) = splitlinesAux (l.reverse ++ acc) t := by
  induction l with
  | nil => intro acc t; simp
  | cons c l2 ih =>
    intro acc t
    have hc := hl c (List.mem_cons_self c l2)
    have hl2 := fun x hx => hl x (List.mem_cons_of_mem c hx)
    rw [List.cons_append, splitlinesAux_nonbreak acc c (l2 ++ t) hc, ih hl2]
    simp

theorem splitlinesAux_final (l : Str) (hl : ∀ c ∈ l, isBreakChar c = false) (hne : l ≠ []) :
    splitlinesAux [] l = [l] := by
  have := splitlinesAux_through l hl [] []
  rw [List.append_nil] at this
  rw [this, splitlinesAux]
  rw [if_neg (by simpa using hne)]
  simp

/-- `splitlines` of a `"\n"`-joined list of break-free lines whose last line
is non-empty recovers the lines. -/
theorem splitlines_join : ∀ (lines : List Str),
    (∀ l ∈ lines, ∀ c ∈ l, isBreakChar c = false) →
    lines.getLast? ≠ some [] →
    splitlines (interc ['\n'] lines) = lines := by
  intro lines
  induction lines with
  | nil => intro _ _; rfl
  | cons x rest ih =>
    intro h hlast
    cases rest with
    | nil =>
      have hx : x ≠ [] := by
        intro hc
        exact hlast (by simp [hc])
      simp only [interc]
      exact splitlinesAux_final x (h x (List.mem_cons_self x [])) hx
    | cons y rest2 =>
      have hx := h x (List.mem_cons_self x _)
      have hrest := fun l hl => h l (List.mem_cons_of_mem x hl)
      have hlast2 : (y :: rest2).getLast? ≠ some [] := by
        rwa [List.getLast?_cons_cons] at hlast
      simp only [interc]
      unfold splitlines
      rw [List.append_assoc, splitlinesAux_through x hx, List.append_nil,
        List.singleton_append, splitlinesAux_newline]
      simp only [List.reverse_reverse, List.cons_append, List.nil_append]
      have := ih hrest hlast2
      unfold splitlines at this
      rw [this]

theorem splitBar_sep (acc rest : Str) :
    splitBar acc (' ' :: '|' :: ' ' :: rest) = acc.reverse :: splitBar [] rest := by
  rw [splitBar]
  rw [if_pos (by exact ⟨rfl, rfl, rfl⟩)]

theorem splitBar_nonsep (acc : Str) (c : Char) (rest : Str)
    (h : ¬(c = ' ' ∧ rest.head? = some '|' ∧ rest.tail.head? = some ' ')) :
    splitBar acc (c :: rest) = splitBar (c :: acc) rest := by
  rw [splitBar.eq_def]
  split
  · rename_i heq
    cases heq
  · rename_i acc2 c2 rest2 heq
    injection heq with h1 h2
    subst h1
    subst h2
    rw [if_neg h]

/-- The scan walks through a pipe-free field up to the next separator. -/
theorem splitBar_through (cell : Str) (hc : '|' ∉ cell) :
    ∀ (acc t : Str),
      (t = [] ∨ ∃ t2, t = ' ' :: '|' :: ' ' :: t2) →
      splitBar acc (cell ++ t) = splitBar (cell.reverse ++ acc) t := by
  induction cell with
  | nil => intro acc t _; simp
  | cons c cell2 ih =>
    intro acc t ht
    have hcne : c ≠ '|' := fun hcc => hc (by simp [hcc])
    have hc2 : '|' ∉ cell2 := fun hm => hc (List.mem_cons_of_mem c hm)
    have hnosep : ¬(c = ' ' ∧ (cell2 ++ t).head? = some '|' ∧
        (cell2 ++ t).tail.head? = some ' ') := by
      rintro ⟨-, hh, -⟩
      cases cell2 with
      | cons d cell3 =>
        have : d = '|' := by simpa using hh
        exact hc (by simp [this])
      | nil =>
        rcases ht with ht | ⟨t2, ht⟩
        · rw [ht] at hh
          simp at hh
        · rw [ht] at hh
          simp at hh
    rw [List.cons_append, splitBar_nonsep acc c (cell2 ++ t) hnosep, ih hc2 (c :: acc) t ht]
    simp

theorem splitBar_cell_end (cell : Str) (hc : '|' ∉ cell) (acc : Str) :
    splitBar acc (cell ++ []) = [acc.reverse ++ cell] := by
  rw [splitBar_through cell hc acc [] (Or.inl rfl)]
  simp [splitBar]

theorem splitBar_cell_sep (cell : Str) (hc : '|' ∉ cell) (acc t : Str) :
    splitBar acc (cell ++ ' ' :: '|' :: ' ' :: t) = (acc.reverse ++ cell) :: splitBar [] t := by
  rw [splitBar_through cell hc acc (' ' :: '|' :: ' ' :: t) (Or.inr ⟨t, rfl⟩),
    splitBar_sep]
  simp

/-! ### The Python string order: totality and transitivity -/

theorem strLe_total : ∀ (a b : Str), strLe a b = true ∨ strLe b a = true := by
  intro a
  induction a with
  | nil => intro b; exact Or.inl rfl
  | cons c as ih =>
    intro b
    cases b with
    | nil => exact Or.inr rfl
    | cons d bs =>
      rcases lt_trichotomy c d with hcd | hcd | hcd
      · exact Or.inl (by simp [strLe, hcd])
      · subst hcd
        rcases ih bs with h1 | h1
        · exact Or.inl (by simp [strLe, h1])
        · exact Or.inr (by simp [strLe, h1])
      · exact Or.inr (by simp [strLe, hcd])

theorem strLe_trans : ∀ (a b c : Str), strLe a b = true → strLe b c = true →
    strLe a c = true := by
  intro a
  induction a with
  | nil => intro b c _ _; rfl
  | cons x as ih =>
    intro b c hab hbc
    cases b with
    | nil => exact absurd hab (by simp [strLe])
    | cons y bs =>
      cases c with
      | nil => exact absurd hbc (by simp [strLe])
      | cons z cs =>
        simp only [strLe, Bool.or_eq_true, Bool.and_eq_true, decide_eq_true_eq] at hab hbc ⊢
        rcases hab with hab | ⟨hab, hab2⟩
        · rcases hbc with hbc | ⟨hbc, hbc2⟩
          · exact Or.inl (lt_trans hab hbc)
          · exact Or.inl (hbc ▸ hab)
        · subst hab
          rcases hbc with hbc | ⟨hbc, hbc2⟩
          · exact Or.inl hbc
          · exact Or.inr ⟨hbc, ih bs cs hab2 hbc2⟩

/-- `sorted(rows.items())` compares by key (keys are unique). -/
instance : IsTotal (Str × Row) Formatter.keyLe :=
  ⟨fun a b => by unfold Formatter.keyLe; exact strLe_total a.1 b.1⟩

instance : IsTrans (Str × Row) Formatter.keyLe :=
  ⟨fun a b c => by unfold Formatter.keyLe; exact strLe_trans a.1 b.1 c.1⟩

end SpotifyArchive

namespace SpotifyArchive

/-! ### Association-list extensionality and permutation stability -/

theorem setRow_append (k : Str) (v : Row) (rows : RowMap) (h : k ∉ keysOf rows) :
    setRow k v rows = rows ++ [(k, v)] := by
  induction rows with
  | nil => rfl
  | cons p rest ih =>
    obtain ⟨k2, r⟩ := p
    have hne : k2 ≠ k := by
      intro hc
      exact h (by simp [keysOf, hc])
    have h2 : k ∉ keysOf rest := by
      intro hc
      apply h
      simp only [keysOf, List.map_cons, List.mem_cons]
      exact Or.inr hc
    simp [setRow, hne, ih h2]

theorem lookupRow_of_mem_nodup : ∀ (rows : RowMap), (keysOf rows).Nodup →
    ∀ kr ∈ rows, lookupRow kr.1 rows = some kr.2 := by
  intro rows
  induction rows with
  | nil => intro _ kr hkr; simp at hkr
  | cons p rest ih =>
    intro hnd kr hkr
    obtain ⟨k2, r⟩ := p
    have hcons := List.nodup_cons.mp (show (k2 :: keysOf rest).Nodup by
      simpa [keysOf] using hnd)
    rcases List.mem_cons.mp hkr with h1 | h1
    · subst h1
      simp [lookupRow]
    · have hne : k2 ≠ kr.1 := by
        intro hc
        apply hcons.1
        rw [hc]
        exact List.mem_map_of_mem Prod.fst h1
      rw [lookupRow, if_neg hne]
      exact ih hcons.2 kr h1

theorem mem_of_lookupRow : ∀ (rows : RowMap) (k : Str) (r : Row),
    lookupRow k rows = some r → (k, r) ∈ rows := by
  intro rows
  induction rows with
  | nil => intro k r h; cases h
  | cons p rest ih =>
    intro k r h
    obtain ⟨k2, r2⟩ := p
    by_cases hk : k2 = k
    · subst hk
      rw [lookupRow, if_pos rfl] at h
      have := Option.some.inj h
      subst this
      exact List.mem_cons_self _ _
    · rw [lookupRow, if_neg hk] at h
      exact List.mem_cons_of_mem _ (ih k r h)

/-- Two insertion-ordered dicts with the same key sequence, no duplicate
keys, and the same lookups are equal. -/
theorem assoc_ext : ∀ (l1 l2 : RowMap), keysOf l1 = keysOf l2 →
    (keysOf l1).Nodup → (∀ k, lookupRow k l1 = lookupRow k l2) → l1 = l2 := by
  intro l1
  induction l1 with
  | nil =>
    intro l2 hkeys _ _
    cases l2 with
    | nil => rfl
    | cons p rest => simp [keysOf] at hkeys
  | cons p rest ih =>
    intro l2 hkeys hnd hlook
    obtain ⟨k, r⟩ := p
    cases l2 with
    | nil => simp [keysOf] at hkeys
    | cons q rest2 =>
      obtain ⟨k2, r2⟩ := q
      have hk : k = k2 := by simpa [keysOf] using congrArg List.head? hkeys
      subst hk
      have hr : r = r2 := by
        have := hlook k
        rw [lookupRow, if_pos rfl, lookupRow, if_pos rfl] at this
        exact Option.some.inj this
      subst hr
      have hkeys2 : keysOf rest = keysOf rest2 := by
        simpa [keysOf] using congrArg List.tail hkeys
      have hnd2 : (keysOf rest).Nodup :=
        (List.nodup_cons.mp (by simpa [keysOf] using hnd)).2
      have hknot : k ∉ keysOf rest :=
        (List.nodup_cons.mp (by simpa [keysOf] using hnd)).1
      have hlook2 : ∀ k2, lookupRow k2 rest = lookupRow k2 rest2 := by
        intro k3
        by_cases hk3 : k = k3
        · subst hk3
          rw [lookupRow_none_of_notmem k rest hknot,
            lookupRow_none_of_notmem k rest2 (hkeys2 ▸ hknot)]
        · have := hlook k3
          rwa [lookupRow, if_neg hk3, lookupRow, if_neg hk3] at this
      rw [ih rest2 hkeys2 hnd2 hlook2]

/-- Lookups agree across a permutation when keys are unique. -/
theorem lookupRow_perm (l1 l2 : RowMap) (hperm : l1.Perm l2)
    (hnd : (keysOf l1).Nodup) (k : Str) : lookupRow k l1 = lookupRow k l2 := by
  have hnd2 : (keysOf l2).Nodup := (hperm.map Prod.fst).nodup_iff.mp (by simpa [keysOf] using hnd)
  rcases h1 : lookupRow k l1 with _ | r
  · rcases h2 : lookupRow k l2 with _ | r2
    · rfl
    · have hmem := hperm.mem_iff.mpr (mem_of_lookupRow l2 k r2 h2)
      have := lookupRow_of_mem_nodup l1 hnd (k, r2) hmem
      rw [h1] at this
      cases this
  · have hmem := hperm.mem_iff.mp (mem_of_lookupRow l1 k r h1)
    have := lookupRow_of_mem_nodup l2 (by simpa [keysOf] using hnd2) (k, r) hmem
    rw [this]


/-! ### Well-formedness conditions for the round-trip claims -/

/-- No Python line-boundary characters. -/
def noBreakStr (s : Str) : Prop := ∀ c ∈ s, isBreakChar c = false

/-- A name that renders and re-parses cleanly: non-empty, break-free,
pipe-free and free of the substring `"]("`. -/
def wfName (s : Str) : Prop :=
  s ≠ [] ∧ noBreakStr s ∧ hasBrackParen s = false ∧ '|' ∉ s

/-- A URL that is present and renders and re-parses cleanly. -/
def wfUrlOpt (u : Option Str) : Prop :=
  ∃ v, u = some v ∧ v ≠ [] ∧ noBreakStr v ∧ ')' ∉ v ∧ '|' ∉ v

/-- A track all of whose rendered cells re-parse to the same ContentKey. -/
def wfTrack (t : Track) : Prop :=
  wfName t.name ∧ wfUrlOpt t.url ∧ wfName t.album.name ∧ wfUrlOpt t.album.url ∧
    (∀ a ∈ t.artists, wfName a.name ∧ wfUrlOpt a.url) ∧ 1000 ≤ t.duration_ms

/-- A date string (or any cell-safe text): break-free and pipe-free. -/
def wfDate (s : Str) : Prop := noBreakStr s ∧ '|' ∉ s

instance (s : Str) : Decidable (noBreakStr s) := by unfold noBreakStr; infer_instance

instance (s : Str) : Decidable (wfName s) := by unfold wfName; infer_instance

instance (s : Str) : Decidable (wfDate s) := by unfold wfDate; infer_instance

instance (t : Track) : Decidable (wfTrack t) := by
  unfold wfTrack wfUrlOpt
  infer_instance

theorem noBreakStr_no_nl (s : Str) (h : noBreakStr s) : '\n' ∉ s := by
  intro hm
  exact absurd (h '\n' hm) (by decide)

theorem cleanName_of_wfName (s : Str) (h : wfName s) : cleanName s :=
  ⟨h.1, noBreakStr_no_nl s h.2.1, h.2.2.1⟩

theorem cleanUrl_of_wfUrl (v : Str) (hne : v ≠ []) (hnb : noBreakStr v) (hpar : ')' ∉ v) :
    cleanUrl v := ⟨hne, noBreakStr_no_nl v hnb, hpar⟩

theorem noBreakStr_append (a b : Str) (ha : noBreakStr a) (hb : noBreakStr b) :
    noBreakStr (a ++ b) := by
  intro c hc
  rcases List.mem_append.mp hc with h | h
  · exact ha c h
  · exact hb c h

theorem noBreakStr_cons (c : Char) (s : Str) (hc : isBreakChar c = false)
    (hs : noBreakStr s) : noBreakStr (c :: s) := by
  intro x hx
  rcases List.mem_cons.mp hx with h | h
  · subst h; exact hc
  · exact hs x h

theorem noBreakStr_link (text : Str) (u : Option Str) (ht : noBreakStr text)
    (hu : ∀ v, u = some v → noBreakStr v) : noBreakStr (Formatter.link text u) := by
  match u with
  | none => exact ht
  | some v =>
    by_cases hv : v = []
    · simpa [Formatter.link, hv] using ht
    · have hnb := hu v rfl
      rw [Formatter.link, if_neg hv]
      refine noBreakStr_cons _ _ (by decide) (noBreakStr_append _ _ ht ?_)
      refine noBreakStr_cons _ _ (by decide) (noBreakStr_cons _ _ (by decide) ?_)
      exact noBreakStr_append _ _ hnb (by intro c hc; simp only [List.mem_singleton] at hc; subst hc; decide)

/-! ### The characters of a formatted duration -/

theorem natStrAux_chars (fuel n : Nat) :
    ∀ c ∈ natStrAux fuel n, ∃ d, d < 10 ∧ c = digitChar d := by
  induction fuel generalizing n with
  | zero => intro c hc; simp [natStrAux] at hc
  | succ fuel ih =>
    intro c hc
    by_cases hn : n < 10
    · rw [natStrAux, if_pos hn] at hc
      simp only [List.mem_singleton] at hc
      exact ⟨n, hn, hc⟩
    · rw [natStrAux, if_neg hn] at hc
      rcases List.mem_append.mp hc with h | h
      · exact ih (n / 10) c h
      · simp only [List.mem_singleton] at h
        exact ⟨n % 10, Nat.mod_lt n (by omega), h⟩

theorem natStr_chars (n : Nat) : ∀ c ∈ natStr n, ∃ d, d < 10 ∧ c = digitChar d :=
  natStrAux_chars (n + 1) n

theorem pad2_chars (n : Nat) : ∀ c ∈ pad2 n, ∃ d, d < 10 ∧ c = digitChar d := by
  intro c hc
  unfold pad2 at hc
  by_cases hn : n < 10
  · rw [if_pos hn] at hc
    rcases List.mem_cons.mp hc with h | h
    · exact ⟨0, by omega, by rw [h]; rfl⟩
    · exact natStr_chars n c h
  · rw [if_neg hn] at hc
    exact natStr_chars n c hc

theorem digitChar_safe : ∀ d, d < 10 →
    isBreakChar (digitChar d) = false ∧ digitChar d ≠ '|' := by decide

theorem day_chars_subset : ∀ c ∈ ((" day").data : Str),
    c ∈ ([':', ' ', ',', 'd', 'a', 'y', 's'] : Str) := by decide

theorem comma_chars_subset : ∀ c ∈ ((", ").data : Str),
    c ∈ ([':', ' ', ',', 'd', 'a', 'y', 's'] : Str) := by decide

theorem special_chars_safe : ∀ c ∈ ([':', ' ', ',', 'd', 'a', 'y', 's'] : Str),
    isBreakChar c = false ∧ c ≠ '|' := by decide

/-- Every character of `str(timedelta(seconds=s))` is a digit or one of
`':' ' ' ',' 'd' 'a' 'y' 's'`. -/
theorem timedeltaStr_chars (s : Nat) :
    ∀ c ∈ Formatter.timedeltaStr s,
      (∃ d, d < 10 ∧ c = digitChar d) ∨ c ∈ ([':', ' ', ',', 'd', 'a', 'y', 's'] : Str) := by
  intro c hc
  unfold Formatter.timedeltaStr at hc
  by_cases hd : s / 86400 = 0
  · rw [if_pos hd] at hc
    rcases List.mem_append.mp hc with h | h
    · rcases List.mem_append.mp h with h2 | h2
      · exact Or.inl (natStr_chars _ c h2)
      · rcases List.mem_cons.mp h2 with h3 | h3
        · subst h3; exact Or.inr (by decide)
        · exact Or.inl (pad2_chars _ c h3)
    · rcases List.mem_cons.mp h with h3 | h3
      · subst h3; exact Or.inr (by decide)
      · exact Or.inl (pad2_chars _ c h3)
  · rw [if_neg hd] at hc
    rcases List.mem_append.mp hc with h | h
    · rcases List.mem_append.mp h with h2 | h2
      · rcases List.mem_append.mp h2 with h3 | h3
        · rcases List.mem_append.mp h3 with h4 | h4
          · exact Or.inl (natStr_chars _ c h4)
          · exact Or.inr (day_chars_subset c h4)
        · by_cases hone : s / 86400 = 1
          · rw [if_pos hone] at h3
            simp at h3
          · rw [if_neg hone] at h3
            simp only [List.mem_singleton] at h3
            subst h3
            exact Or.inr (by decide)
      · exact Or.inr (comma_chars_subset c h2)
    · rcases List.mem_append.mp h with h2 | h2
      · rcases List.mem_append.mp h2 with h3 | h3
        · exact Or.inl (natStr_chars _ c h3)
        · rcases List.mem_cons.mp h3 with h4 | h4
          · subst h4; exact Or.inr (by decide)
          · exact Or.inl (pad2_chars _ c h4)
      · rcases List.mem_cons.mp h2 with h4 | h4
        · subst h4; exact Or.inr (by decide)
        · exact Or.inl (pad2_chars _ c h4)

theorem timedeltaStr_char_safe (s : Nat) :
    ∀ c ∈ Formatter.timedeltaStr s, isBreakChar c = false ∧ c ≠ '|' := by
  intro c hc
  rcases timedeltaStr_chars s c hc with ⟨d, hd, hcd⟩ | hmem
  · subst hcd
    exact digitChar_safe d hd
  · exact special_chars_safe c hmem

theorem natStrAux_nonzero_digit (fuel n : Nat) (hfuel : n < fuel) (hn : n ≠ 0) :
    ∃ c ∈ natStrAux fuel n, ∃ d, d ≠ 0 ∧ d < 10 ∧ c = digitChar d := by
  induction fuel generalizing n with
  | zero => omega
  | succ fuel ih =>
    by_cases h10 : n < 10
    · refine ⟨digitChar n, ?_, n, hn, h10, rfl⟩
      rw [natStrAux, if_pos h10]
      exact List.mem_singleton.mpr rfl
    · have hdiv : n / 10 ≠ 0 := by omega
      have hdivlt : n / 10 < fuel := by
        have h1 : n / 10 < n := Nat.div_lt_self (by omega) (by omega)
        omega
      obtain ⟨c, hc, d, hd0, hd10, hcd⟩ := ih (n / 10) hdivlt hdiv
      refine ⟨c, ?_, d, hd0, hd10, hcd⟩
      rw [natStrAux, if_neg h10]
      exact List.mem_append.mpr (Or.inl hc)

theorem natStr_nonzero_digit (n : Nat) (hn : n ≠ 0) :
    ∃ c ∈ natStr n, ∃ d, d ≠ 0 ∧ d < 10 ∧ c = digitChar d :=
  natStrAux_nonzero_digit (n + 1) n (Nat.lt_succ_self n) hn

theorem pad2_nonzero_digit (n : Nat) (hn : n ≠ 0) :
    ∃ c ∈ pad2 n, ∃ d, d ≠ 0 ∧ d < 10 ∧ c = digitChar d := by
  obtain ⟨c, hc, d, hd⟩ := natStr_nonzero_digit n hn
  unfold pad2
  by_cases h10 : n < 10
  · exact ⟨c, by rw [if_pos h10]; exact List.mem_cons_of_mem _ hc, d, hd⟩
  · exact ⟨c, by rw [if_neg h10]; exact hc, d, hd⟩

theorem nonzero_digit_not_trim : ∀ d, d < 10 → d ≠ 0 →
    Formatter.isTrimChar (digitChar d) = false := by decide

/-- A duration of at least one second formats successfully, and the result
is a non-empty, break-free, pipe-free cell. -/
theorem formatDuration_wf (ms : Nat) (h : 1000 ≤ ms) :
    ∃ r, Formatter.formatDuration ms = some r ∧ r ≠ [] ∧ noBreakStr r ∧ '|' ∉ r := by
  set s := ms / 1000 with hs
  have hs1 : 1 ≤ s := by
    rw [hs]
    exact Nat.le_div_iff_mul_le (by omega) |>.mpr (by omega)
  have hnontrim : ∃ c ∈ Formatter.timedeltaStr s, Formatter.isTrimChar c = false := by
    unfold Formatter.timedeltaStr
    by_cases hd : s / 86400 = 0
    · rw [if_pos hd]
      have hsum : s % 86400 = s := by
        apply Nat.mod_eq_of_lt
        omega
      have hpos : s % 86400 / 3600 ≠ 0 ∨ s % 86400 % 3600 / 60 ≠ 0 ∨ s % 86400 % 60 ≠ 0 := by
        by_contra hall
        push_neg at hall
        obtain ⟨h1, h2, h3⟩ := hall
        have := Nat.div_add_mod (s % 86400) 3600
        have := Nat.div_add_mod (s % 86400 % 3600) 60
        omega
      rcases hpos with h1 | h1 | h1
      · obtain ⟨c, hc, d, hd0, hd10, hcd⟩ := natStr_nonzero_digit _ h1
        refine ⟨c, ?_, by rw [hcd]; exact nonzero_digit_not_trim d hd10 hd0⟩
        exact List.mem_append.mpr (Or.inl (List.mem_append.mpr (Or.inl hc)))
      · obtain ⟨c, hc, d, hd0, hd10, hcd⟩ := pad2_nonzero_digit _ h1
        refine ⟨c, ?_, by rw [hcd]; exact nonzero_digit_not_trim d hd10 hd0⟩
        exact List.mem_append.mpr (Or.inl (List.mem_append.mpr
          (Or.inr (List.mem_cons_of_mem _ hc))))
      · obtain ⟨c, hc, d, hd0, hd10, hcd⟩ := pad2_nonzero_digit _ h1
        refine ⟨c, ?_, by rw [hcd]; exact nonzero_digit_not_trim d hd10 hd0⟩
        exact List.mem_append.mpr (Or.inr (List.mem_cons_of_mem _ hc))
    · rw [if_neg hd]
      refine ⟨'d', ?_, by decide⟩
      refine List.mem_append.mpr (Or.inl (List.mem_append.mpr (Or.inl
        (List.mem_append.mpr (Or.inl (List.mem_append.mpr (Or.inr ?_)))))))
      decide
  have hdrop : (Formatter.timedeltaStr s).dropWhile Formatter.isTrimChar ≠ [] := by
    intro hcontra
    obtain ⟨c, hc, hcf⟩ := hnontrim
    have := (dropWhile_eq_nil_iff_all Formatter.isTrimChar _).mp hcontra c hc
    rw [hcf] at this
    cases this
  rcases hres : (Formatter.timedeltaStr s).dropWhile Formatter.isTrimChar with _ | ⟨c, rest⟩
  · exact absurd hres hdrop
  · refine ⟨c :: rest, ?_, by simp, ?_, ?_⟩
    · unfold Formatter.formatDuration
      rw [← hs, hres]
    · intro x hx
      obtain ⟨pre, hpre, -⟩ := dropWhile_decompose Formatter.isTrimChar (Formatter.timedeltaStr s)
      rw [hres] at hpre
      exact (timedeltaStr_char_safe s x (by rw [hpre]; exact List.mem_append.mpr (Or.inr hx))).1
    · intro hx
      obtain ⟨pre, hpre, -⟩ := dropWhile_decompose Formatter.isTrimChar (Formatter.timedeltaStr s)
      rw [hres] at hpre
      exact (timedeltaStr_char_safe s '|' (by rw [hpre]; exact List.mem_append.mpr (Or.inr hx))).2 rfl



/-! ### URL strings are break-free -/

theorem replaceAux_chars (pat rep : Str) : ∀ (fuel : Nat) (s : Str),
    ∀ c ∈ replaceAux pat rep fuel s, c ∈ s ∨ c ∈ rep := by
  intro fuel
  induction fuel with
  | zero => intro s c hc; exact Or.inl hc
  | succ fuel ih =>
    intro s c hc
    by_cases hpre : pat.isPrefixOf s
    · have hc2 : c ∈ rep ++ replaceAux pat rep fuel (s.drop pat.length) := by
        cases s with
        | nil =>
          have hc3 : c ∈ rep ++ replaceAux pat rep fuel (([] : Str).drop pat.length) := by
            have heq : replaceAux pat rep (fuel + 1) ([] : Str) =
                if pat.isPrefixOf ([] : Str) then
                  rep ++ replaceAux pat rep fuel (([] : Str).drop pat.length)
                else [] := rfl
            rw [heq, if_pos hpre] at hc
            exact hc
          exact hc3
        | cons c2 t =>
          have heq : replaceAux pat rep (fuel + 1) (c2 :: t) =
              if pat.isPrefixOf (c2 :: t) then
                rep ++ replaceAux pat rep fuel ((c2 :: t).drop pat.length)
              else c2 :: replaceAux pat rep fuel t := rfl
          rw [heq, if_pos hpre] at hc
          exact hc
      rcases List.mem_append.mp hc2 with h | h
      · exact Or.inr h
      · rcases ih (s.drop pat.length) c h with h2 | h2
        · exact Or.inl (List.mem_of_mem_drop h2)
        · exact Or.inr h2
    · cases s with
      | nil =>
        have heq : replaceAux pat rep (fuel + 1) ([] : Str) =
            if pat.isPrefixOf ([] : Str) then
              rep ++ replaceAux pat rep fuel (([] : Str).drop pat.length)
            else [] := rfl
        rw [heq, if_neg hpre] at hc
        simp at hc
      | cons c2 t =>
        have heq : replaceAux pat rep (fuel + 1) (c2 :: t) =
            if pat.isPrefixOf (c2 :: t) then
              rep ++ replaceAux pat rep fuel ((c2 :: t).drop pat.length)
            else c2 :: replaceAux pat rep fuel t := rfl
        rw [heq, if_neg hpre] at hc
        rcases List.mem_cons.mp hc with h | h
        · exact Or.inl (h ▸ List.mem_cons_self c2 t)
        · rcases ih t c h with h2 | h2
          · exact Or.inl (List.mem_cons_of_mem c2 h2)
          · exact Or.inr h2

theorem noBreakStr_replaceStr (pat rep s : Str) (hs : noBreakStr s)
    (hrep : noBreakStr rep) : noBreakStr (replaceStr pat rep s) := by
  unfold replaceStr
  by_cases hp : pat = []
  · rw [if_pos hp]; exact hs
  · rw [if_neg hp]
    intro c hc
    rcases replaceAux_chars pat rep (s.length + 1) s c hc with h | h
    · exact hs c h
    · exact hrep c h

theorem noBreakStr_URL_plain (pid : Str) (h : noBreakStr pid) :
    noBreakStr (URL.plain pid) := by
  unfold URL.plain URL.BASE
  exact noBreakStr_append _ _ (noBreakStr_append _ _ (by decide) (by decide)) h

theorem noBreakStr_URL_plainHistory (pid : Str) (h : noBreakStr pid) :
    noBreakStr (URL.plainHistory pid) :=
  noBreakStr_replaceStr _ _ _ (noBreakStr_URL_plain pid h) (by decide)

theorem noBreakStr_URL_pretty (name : Str) (h : noBreakStr name) :
    noBreakStr (URL.pretty name) := by
  unfold URL.pretty URL.BASE
  refine noBreakStr_append _ _ (noBreakStr_append _ _ (noBreakStr_append _ _
    (by decide) (by decide)) ?_) (by decide)
  exact noBreakStr_replaceStr _ _ _ h (by decide)

theorem URL_pretty_ne_nil (name : Str) : URL.pretty name ≠ [] := by
  unfold URL.pretty URL.BASE
  intro h
  rw [List.append_eq_nil, List.append_eq_nil, List.append_eq_nil] at h
  have := h.1.1.1
  revert this
  decide

/-! ### The header block is break-free and contains no divider line -/

theorem cons_ne_cons_head (a b : Char) (x y : Str) (h : a ≠ b) : a :: x ≠ b :: y := by
  intro hc
  injection hc with h1 _
  exact h h1

theorem markdownHeaderLines_explicit (name : Str) (purl : Option Str) (pid desc : Str) :
    Formatter.markdownHeaderLines name purl pid desc true none =
      [ Formatter.link ("pretty").data (some (URL.pretty name)) ++ (" - ").data ++
          ("cumulative").data ++ [] ++ (" - ").data ++
          Formatter.link ("plain").data (some (URL.plain pid)) ++ (" (").data ++
          Formatter.link ("githistory").data (some (URL.plainHistory pid)) ++ [')'],
        [],
        ("### ").data ++ Formatter.link name purl,
        [],
        ("> ").data ++ desc,
        [] ] := rfl

theorem dividerLine6_cons :
    Formatter.dividerLine6 = '|' :: ("---|---|---|---|---|---|").data := by decide

theorem header_lines_ne_divider (name : Str) (purl : Option Str) (pid desc : Str) :
    ∀ l ∈ Formatter.markdownHeaderLines name purl pid desc true none ++
        [Formatter.columnsLine6],
      l ≠ Formatter.dividerLine6 := by
  intro l hl
  rw [markdownHeaderLines_explicit] at hl
  simp only [List.mem_append, List.mem_cons, List.not_mem_nil, or_false,
    List.mem_singleton] at hl
  rcases hl with ((h | h | h | h | h | h) | h)
  · subst h
    rw [Formatter.link, if_neg (URL_pretty_ne_nil name), dividerLine6_cons]
    simp only [List.cons_append]
    exact cons_ne_cons_head _ _ _ _ (by decide)
  · subst h
    rw [dividerLine6_cons]
    simp
  · subst h
    rw [dividerLine6_cons]
    exact cons_ne_cons_head _ _ _ _ (by decide)
  · subst h
    rw [dividerLine6_cons]
    simp
  · subst h
    rw [dividerLine6_cons]
    exact cons_ne_cons_head _ _ _ _ (by decide)
  · subst h
    rw [dividerLine6_cons]
    simp
  · subst h
    decide

theorem noBreakStr_nil : noBreakStr ([] : Str) := by
  intro c hc
  simp at hc

theorem header_lines_noBreak (name : Str) (purl : Option Str) (pid desc : Str)
    (hn : noBreakStr name) (hu : ∀ v, purl = some v → noBreakStr v)
    (hp : noBreakStr pid) (hd : noBreakStr desc) :
    ∀ l ∈ Formatter.markdownHeaderLines name purl pid desc true none ++
        [Formatter.columnsLine6, Formatter.dividerLine6],
      noBreakStr l := by
  have hpretty : noBreakStr (Formatter.link ("pretty").data (some (URL.pretty name))) :=
    noBreakStr_link _ _ (by decide)
      (fun v hv => by
        have h2 := Option.some.inj hv
        subst h2
        exact noBreakStr_URL_pretty name hn)
  have hplain : noBreakStr (Formatter.link ("plain").data (some (URL.plain pid))) :=
    noBreakStr_link _ _ (by decide)
      (fun v hv => by
        have h2 := Option.some.inj hv
        subst h2
        exact noBreakStr_URL_plain pid hp)
  have hgit : noBreakStr (Formatter.link ("githistory").data (some (URL.plainHistory pid))) :=
    noBreakStr_link _ _ (by decide)
      (fun v hv => by
        have h2 := Option.some.inj hv
        subst h2
        exact noBreakStr_URL_plainHistory pid hp)
  intro l hl
  rw [markdownHeaderLines_explicit] at hl
  simp only [List.mem_append, List.mem_cons, List.not_mem_nil, or_false,
    List.mem_singleton] at hl
  rcases hl with ((h | h | h | h | h | h) | h | h)
  · subst h
    refine noBreakStr_append _ _ ?_
      (by intro c hc; simp only [List.mem_singleton] at hc; subst hc; decide)
    refine noBreakStr_append _ _ ?_ hgit
    refine noBreakStr_append _ _ ?_ (by decide)
    refine noBreakStr_append _ _ ?_ hplain
    refine noBreakStr_append _ _ ?_ (by decide)
    refine noBreakStr_append _ _ ?_ noBreakStr_nil
    refine noBreakStr_append _ _ ?_ (by decide)
    exact noBreakStr_append _ _ hpretty (by decide)
  · subst h; exact noBreakStr_nil
  · subst h
    exact noBreakStr_append _ _ (by decide) (noBreakStr_link _ _ hn hu)
  · subst h; exact noBreakStr_nil
  · subst h
    exact noBreakStr_append _ _ (by decide) hd
  · subst h; exact noBreakStr_nil
  · subst h; decide
  · subst h; decide



/-! ### Rendered row lines re-parse to their cells -/

theorem formatLine6_shape (c1 c2 c3 c4 c5 c6 : Str) :
    Formatter.formatLine6 c1 c2 c3 c4 c5 c6 =
      '|' :: ' ' ::
        ((c1 ++ (" | ").data ++ c2 ++ (" | ").data ++ c3 ++ (" | ").data ++
          c4 ++ (" | ").data ++ c5 ++ (" | ").data ++ c6) ++ (" |").data) := by
  unfold Formatter.formatLine6
  simp only [List.append_assoc]
  rfl

theorem slice2m2_formatLine6 (c1 c2 c3 c4 c5 c6 : Str) :
    slice2m2 (Formatter.formatLine6 c1 c2 c3 c4 c5 c6) =
      c1 ++ (" | ").data ++ c2 ++ (" | ").data ++ c3 ++ (" | ").data ++
        c4 ++ (" | ").data ++ c5 ++ (" | ").data ++ c6 := by
  set mid := c1 ++ (" | ").data ++ c2 ++ (" | ").data ++ c3 ++ (" | ").data ++
    c4 ++ (" | ").data ++ c5 ++ (" | ").data ++ c6 with hmid
  have hshape := formatLine6_shape c1 c2 c3 c4 c5 c6
  rw [← hmid] at hshape
  unfold slice2m2
  rw [hshape]
  have hdrop : List.drop 2 ('|' :: ' ' :: (mid ++ (" |").data)) = mid ++ (" |").data := rfl
  have hlen : ('|' :: ' ' :: (mid ++ (" |").data)).length - 4 = mid.length := by
    simp [List.length_append]
  rw [hdrop, hlen, List.take_left]

theorem sep_cons (t : Str) : (" | ").data ++ t = ' ' :: '|' :: ' ' :: t := rfl

/-- Splitting the joined cells recovers the six cells when none contains a
pipe. -/
theorem splitBar_six (c1 c2 c3 c4 c5 c6 : Str)
    (h1 : '|' ∉ c1) (h2 : '|' ∉ c2) (h3 : '|' ∉ c3) (h4 : '|' ∉ c4)
    (h5 : '|' ∉ c5) (h6 : '|' ∉ c6) :
    splitBar [] (c1 ++ (" | ").data ++ c2 ++ (" | ").data ++ c3 ++ (" | ").data ++
      c4 ++ (" | ").data ++ c5 ++ (" | ").data ++ c6) = [c1, c2, c3, c4, c5, c6] := by
  simp only [List.append_assoc, List.cons_append, List.nil_append]
  rw [splitBar_cell_sep c1 h1, splitBar_cell_sep c2 h2, splitBar_cell_sep c3 h3,
    splitBar_cell_sep c4 h4, splitBar_cell_sep c5 h5]
  rw [show c6 = c6 ++ [] by simp, splitBar_cell_end c6 h6]
  simp

/-- The six cells of a row, with no pipes and no break characters. -/
def cellsWf (r : Row) : Prop :=
  ('|' ∉ r.title ∧ '|' ∉ r.artists ∧ '|' ∉ r.album ∧ '|' ∉ r.length ∧
    '|' ∉ r.added ∧ '|' ∉ r.removed) ∧
  (noBreakStr r.title ∧ noBreakStr r.artists ∧ noBreakStr r.album ∧
    noBreakStr r.length ∧ noBreakStr r.added ∧ noBreakStr r.removed)

theorem splitBar_rowLine (kr : Str × Row) (h : cellsWf kr.2) :
    splitBar [] (slice2m2 (Formatter.rowLine kr)) =
      [kr.2.title, kr.2.artists, kr.2.album, kr.2.length, kr.2.added, kr.2.removed] := by
  obtain ⟨⟨p1, p2, p3, p4, p5, p6⟩, -⟩ := h
  unfold Formatter.rowLine
  rw [slice2m2_formatLine6]
  exact splitBar_six _ _ _ _ _ _ p1 p2 p3 p4 p5 p6

theorem barPrefixSafe : ∀ x ∈ (("| ").data : Str), isBreakChar x = false := by decide

theorem barSepSafe : ∀ x ∈ ((" | ").data : Str), isBreakChar x = false := by decide

theorem barSuffixSafe : ∀ x ∈ ((" |").data : Str), isBreakChar x = false := by decide

theorem noBreakStr_rowLine (kr : Str × Row) (h : cellsWf kr.2) :
    noBreakStr (Formatter.rowLine kr) := by
  obtain ⟨-, b1, b2, b3, b4, b5, b6⟩ := h
  unfold Formatter.rowLine Formatter.formatLine6
  intro c hc
  simp only [List.append_assoc, List.mem_append] at hc
  rcases hc with h|h|h|h|h|h|h|h|h|h|h|h|h <;>
    first
      | exact b1 c h
      | exact b2 c h
      | exact b3 c h
      | exact b4 c h
      | exact b5 c h
      | exact b6 c h
      | exact barPrefixSafe c h
      | exact barSepSafe c h
      | exact barSuffixSafe c h

theorem rowLine_ne_nil (kr : Str × Row) : Formatter.rowLine kr ≠ [] := by
  unfold Formatter.rowLine
  rw [formatLine6_shape]
  simp

/-- Parsing a parsed row stores it back with `Removed` primed. -/
def primeRow (today : Str) (kr : Str × Row) : Str × Row :=
  (kr.1, { kr.2 with removed := if kr.2.removed = [] then today else kr.2.removed })

theorem keysOf_map_primeRow (today : Str) (rs : List (Str × Row)) :
    keysOf (rs.map (primeRow today)) = keysOf rs := by
  unfold keysOf primeRow
  rw [List.map_map]
  rfl

theorem lookupRow_map_primeRow (today : Str) : ∀ (rs : List (Str × Row)) (k : Str),
    lookupRow k (rs.map (primeRow today)) =
      (lookupRow k rs).map fun r =>
        { r with removed := if r.removed = [] then today else r.removed } := by
  intro rs
  induction rs with
  | nil => intro k; rfl
  | cons kr rest ih =>
    intro k
    obtain ⟨k2, r⟩ := kr
    by_cases hk : k2 = k
    · subst hk
      simp [primeRow, lookupRow]
    · simp only [List.map_cons, primeRow, lookupRow, if_neg hk]
      exact ih k

theorem parseLines_cons_six (today : Str) (rows : RowMap) (line : Str)
    (rest : List Str) (a b c d e f : Str) (key : Str)
    (hsplit : splitBar [] (slice2m2 line) = [a, b, c, d, e, f])
    (hkey : Formatter.rowKey a b c = some key) :
    Formatter.parseLines today rows (line :: rest) =
      Formatter.parseLines today
        (setRow key
          { title := a, artists := b, album := c, length := d, added := e,
            removed := if f = [] then today else f } rows)
        rest := by
  simp only [Formatter.parseLines, hsplit, hkey]

/-- Parsing the rendered lines of a list of well-formed rows rebuilds the
rows in order, with `Removed` primed. -/
theorem parseLines_rendered (today : Str) : ∀ (rs : List (Str × Row)) (acc : RowMap),
    (∀ kr ∈ rs, cellsWf kr.2 ∧
      Formatter.rowKey kr.2.title kr.2.artists kr.2.album = some kr.1) →
    (keysOf acc ++ rs.map Prod.fst).Nodup →
    Formatter.parseLines today acc (rs.map Formatter.rowLine) =
      some (acc ++ rs.map (primeRow today)) := by
  intro rs
  induction rs with
  | nil =>
    intro acc _ _
    simp [Formatter.parseLines]
  | cons kr rest ih =>
    intro acc hwf hnd
    have hkr := hwf kr (List.mem_cons_self kr rest)
    have hrest := fun x hx => hwf x (List.mem_cons_of_mem kr hx)
    have hsplit := splitBar_rowLine kr hkr.1
    have hnotmem : kr.1 ∉ keysOf acc := by
      intro hmem
      have : ¬ (keysOf acc).Disjoint ((kr :: rest).map Prod.fst) := by
        intro hdisj
        exact hdisj hmem (by simp)
      exact this (List.disjoint_of_nodup_append hnd)
    rw [List.map_cons,
      parseLines_cons_six today acc (Formatter.rowLine kr) (rest.map Formatter.rowLine)
        kr.2.title kr.2.artists kr.2.album kr.2.length kr.2.added kr.2.removed kr.1
        hsplit hkr.2,
      setRow_append kr.1 _ acc hnotmem]
    have hnd2 : (keysOf (acc ++ [(kr.1,
        { kr.2 with removed := if kr.2.removed = [] then today else kr.2.removed })]) ++
        rest.map Prod.fst).Nodup := by
      have : keysOf (acc ++ [(kr.1, { kr.2 with
          removed := if kr.2.removed = [] then today else kr.2.removed })]) =
          keysOf acc ++ [kr.1] := by
        unfold keysOf
        simp
      rw [this]
      have hshape : keysOf acc ++ [kr.1] ++ rest.map Prod.fst =
          keysOf acc ++ (kr.1 :: rest.map Prod.fst) := by simp
      rw [hshape]
      simpa using hnd
    have := ih (acc ++ [(kr.1, { kr.2 with
      removed := if kr.2.removed = [] then today else kr.2.removed })]) hrest hnd2
    rw [this]
    simp [primeRow]



/-! ### Run-one rows are rendered from the live tracks -/

theorem lastMatch_some_spec (k : Str) : ∀ (tracks : List Track) (t : Track),
    lastMatch k tracks = some t → t ∈ tracks ∧ Formatter.trackKey t = k := by
  intro tracks
  induction tracks with
  | nil => intro t h; simp [lastMatch] at h
  | cons t2 rest ih =>
    intro t h
    rcases hlm : lastMatch k rest with _ | t3
    · rw [lastMatch_cons_none k t2 rest hlm] at h
      by_cases hk : Formatter.trackKey t2 = k
      · rw [if_pos hk] at h
        have := Option.some.inj h
        subst this
        exact ⟨List.mem_cons_self t2 rest, hk⟩
      · rw [if_neg hk] at h
        cases h
    · rw [lastMatch_cons_some k t2 rest t3 hlm] at h
      obtain ⟨hmem, hkey⟩ := ih t3 hlm
      rw [← Option.some.inj h]
      exact ⟨List.mem_cons_of_mem t2 hmem, hkey⟩

theorem mergeTracks_total (today : Str) : ∀ (tracks : List Track) (rows : RowMap),
    (∀ t ∈ tracks, 1000 ≤ t.duration_ms) →
    ∃ out, Formatter.mergeTracks today rows tracks = some out := by
  intro tracks
  induction tracks with
  | nil => intro rows _; exact ⟨rows, rfl⟩
  | cons t rest ih =>
    intro rows hdur
    obtain ⟨len, hfd, -⟩ := formatDuration_wf t.duration_ms (hdur t (List.mem_cons_self t rest))
    obtain ⟨out, hout⟩ := ih
      (setRow (Formatter.trackKey t)
        (Formatter.mergeRow today (lookupRow (Formatter.trackKey t) rows) t len) rows)
      (fun t2 ht2 => hdur t2 (List.mem_cons_of_mem t ht2))
    exact ⟨out, by rw [mergeTracks_cons_some today rows t rest len hfd]; exact hout⟩

theorem mergeTracks_nodup (today : Str) : ∀ (tracks : List Track) (rows out : RowMap),
    Formatter.mergeTracks today rows tracks = some out →
    (keysOf rows).Nodup → (keysOf out).Nodup := by
  intro tracks
  induction tracks with
  | nil =>
    intro rows out h hnd
    rw [mergeTracks_nil] at h
    have := Option.some.inj h
    subst this
    exact hnd
  | cons t rest ih =>
    intro rows out h hnd
    rcases hfd : Formatter.formatDuration t.duration_ms with _ | len
    · rw [mergeTracks_cons_none today rows t rest hfd] at h
      exact Option.noConfusion h
    · rw [mergeTracks_cons_some today rows t rest len hfd] at h
      exact ih _ out h (keysOf_setRow_nodup _ _ rows hnd)

theorem link_chars (text : Str) (u : Option Str) :
    ∀ c ∈ Formatter.link text u,
      c ∈ text ∨ (∃ v, u = some v ∧ c ∈ v) ∨ c ∈ (['[', ']', '(', ')'] : Str) := by
  intro c hc
  match u with
  | none => exact Or.inl hc
  | some v =>
    by_cases hv : v = []
    · rw [Formatter.link, if_pos hv] at hc
      exact Or.inl hc
    · rw [Formatter.link, if_neg hv] at hc
      rcases List.mem_cons.mp hc with h | h
      · exact Or.inr (Or.inr (by rw [h]; decide))
      · rcases List.mem_append.mp h with h2 | h2
        · exact Or.inl h2
        · rcases List.mem_cons.mp h2 with h3 | h3
          · exact Or.inr (Or.inr (by rw [h3]; decide))
          · rcases List.mem_cons.mp h3 with h4 | h4
            · exact Or.inr (Or.inr (by rw [h4]; decide))
            · rcases List.mem_append.mp h4 with h5 | h5
              · exact Or.inr (Or.inl ⟨v, rfl, h5⟩)
              · rcases List.mem_singleton.mp h5 with h6
                exact Or.inr (Or.inr (by rw [h6]; decide))

theorem mem_interc (sep : Str) : ∀ (l : List Str), ∀ c ∈ interc sep l,
    c ∈ sep ∨ ∃ x ∈ l, c ∈ x := by
  intro l
  induction l with
  | nil => intro c hc; simp [interc] at hc
  | cons x rest ih =>
    intro c hc
    cases rest with
    | nil =>
      exact Or.inr ⟨x, List.mem_cons_self x [], by simpa [interc] using hc⟩
    | cons y rest2 =>
      simp only [interc] at hc
      rcases List.mem_append.mp hc with h | h
      · rcases List.mem_append.mp h with h2 | h2
        · exact Or.inr ⟨x, List.mem_cons_self x _, h2⟩
        · exact Or.inl h2
      · rcases ih c h with h2 | ⟨z, hz, hcz⟩
        · exact Or.inl h2
        · exact Or.inr ⟨z, List.mem_cons_of_mem x hz, hcz⟩

theorem pipe_notin_link (text : Str) (u : Option Str) (ht : '|' ∉ text)
    (hu : ∀ v, u = some v → '|' ∉ v) : '|' ∉ Formatter.link text u := by
  intro hmem
  rcases link_chars text u '|' hmem with h | ⟨v, hv, hcv⟩ | h
  · exact ht h
  · exact hu v hv hcv
  · revert h
    decide

theorem noBreakStr_linkedArtists (t : Track)
    (h : ∀ a ∈ t.artists, wfName a.name ∧ wfUrlOpt a.url) :
    noBreakStr (Formatter.linkedArtists t) := by
  intro c hc
  rcases mem_interc _ _ c hc with hsep | ⟨x, hx, hcx⟩
  · have : c = ',' ∨ c = ' ' := by
      simpa [Formatter.artistSeparator] using hsep
    rcases this with h | h <;> subst h <;> decide
  · obtain ⟨a, ha, hax⟩ := List.mem_map.mp hx
    obtain ⟨hn, v, hv, -, hnb, -, -⟩ := h a ha
    subst hax
    have := link_chars a.name a.url c hcx
    rcases this with h2 | ⟨w, hw, hcw⟩ | h2
    · exact hn.2.1 c h2
    · rw [hv] at hw
      have := Option.some.inj hw
      subst this
      exact hnb c hcw
    · have : c = '[' ∨ c = ']' ∨ c = '(' ∨ c = ')' := by
        simpa using h2
      rcases this with h | h | h | h <;> subst h <;> decide

theorem pipe_notin_linkedArtists (t : Track)
    (h : ∀ a ∈ t.artists, wfName a.name ∧ wfUrlOpt a.url) :
    '|' ∉ Formatter.linkedArtists t := by
  intro hc
  rcases mem_interc _ _ '|' hc with hsep | ⟨x, hx, hcx⟩
  · revert hsep
    unfold Formatter.artistSeparator
    decide
  · obtain ⟨a, ha, hax⟩ := List.mem_map.mp hx
    obtain ⟨hn, v, hv, -, -, -, hpipe⟩ := h a ha
    subst hax
    rcases link_chars a.name a.url '|' hcx with h2 | ⟨w, hw, hcw⟩ | h2
    · exact hn.2.2.2 h2
    · rw [hv] at hw
      have := Option.some.inj hw
      subst this
      exact hpipe hcw
    · revert h2
      decide

/-- The row the first run stores for a well-formed track has well-formed
cells. -/
theorem mergeRow_none_cellsWf (today : Str) (t : Track) (len : Str)
    (ht : wfTrack t) (htoday : wfDate today)
    (hlen : len ≠ [] ∧ noBreakStr len ∧ '|' ∉ len) :
    cellsWf (Formatter.mergeRow today none t len) := by
  obtain ⟨hn, hu, han, hau, hart, -⟩ := ht
  obtain ⟨v, hv, hvne, hvnb, hvpar, hvpipe⟩ := hu
  obtain ⟨av, hav, havne, havnb, havpar, havpipe⟩ := hau
  refine ⟨⟨?_, ?_, ?_, ?_, ?_, ?_⟩, ?_, ?_, ?_, ?_, ?_, ?_⟩
  · exact pipe_notin_link _ _ hn.2.2.2 (by
      intro w hw
      rw [hv] at hw
      have := Option.some.inj hw
      subst this
      exact hvpipe)
  · exact pipe_notin_linkedArtists t hart
  · exact pipe_notin_link _ _ han.2.2.2 (by
      intro w hw
      rw [hav] at hw
      have := Option.some.inj hw
      subst this
      exact havpipe)
  · exact hlen.2.2
  · exact htoday.2
  · exact List.not_mem_nil '|'
  · exact noBreakStr_link _ _ hn.2.1 (by
      intro w hw
      rw [hv] at hw
      have := Option.some.inj hw
      subst this
      exact hvnb)
  · exact noBreakStr_linkedArtists t hart
  · exact noBreakStr_link _ _ han.2.1 (by
      intro w hw
      rw [hav] at hw
      have := Option.some.inj hw
      subst this
      exact havnb)
  · exact hlen.2.1
  · exact htoday.1
  · exact noBreakStr_nil

/-- The ContentKey of a first-run row re-derives from its rendered cells. -/
theorem mergeRow_none_rowKey (today : Str) (t : Track) (len : Str) (ht : wfTrack t) :
    Formatter.rowKey (Formatter.mergeRow today none t len).title
      (Formatter.mergeRow today none t len).artists
      (Formatter.mergeRow today none t len).album = some (Formatter.trackKey t) := by
  obtain ⟨hn, hu, han, hau, hart, -⟩ := ht
  obtain ⟨v, hv, hvne, hvnb, hvpar, hvpipe⟩ := hu
  obtain ⟨av, hav, havne, havnb, havpar, havpipe⟩ := hau
  show Formatter.rowKey (Formatter.link t.name t.url) (Formatter.linkedArtists t)
    (Formatter.link t.album.name t.album.url) = some (Formatter.trackKey t)
  refine rowKey_rendered t (cleanName_of_wfName _ hn)
    ⟨v, hv, cleanUrl_of_wfUrl v hvne hvnb hvpar⟩
    (cleanName_of_wfName _ han)
    ⟨av, hav, cleanUrl_of_wfUrl av havne havnb havpar⟩
    ?_
  intro a ha
  obtain ⟨han2, w, hw, hwne, hwnb, hwpar, -⟩ := hart a ha
  exact ⟨cleanName_of_wfName _ han2, w, hw, cleanUrl_of_wfUrl w hwne hwnb hwpar⟩

theorem afterFirst_prefix (divider : Str) : ∀ (pre post : List Str),
    (∀ l ∈ pre, l ≠ divider) →
    Formatter.afterFirst divider (pre ++ divider :: post) = some post := by
  intro pre
  induction pre with
  | nil =>
    intro post _
    simp [Formatter.afterFirst]
  | cons l rest ih =>
    intro post h
    rw [List.cons_append, Formatter.afterFirst,
      if_neg (h l (List.mem_cons_self l rest))]
    exact ih post (fun x hx => h x (List.mem_cons_of_mem l hx))



/-! ### Rendering and re-parsing a ledger -/

theorem cumulative_eq (today : Str) (pc : Option Str) (pid : Str) (p : Playlist)
    (rows : RowMap) (h : Formatter.cumulativeRows today pc p = some rows) :
    Formatter.cumulative today pc pid p none =
      some (interc ['\n']
        ((Formatter.markdownHeaderLines p.name p.url pid p.description true none ++
            [Formatter.columnsLine6, Formatter.dividerLine6]) ++
          (Formatter.sortRows rows).map Formatter.rowLine)) := by
  unfold Formatter.cumulative
  rw [h]

theorem cumulativeRows_of (today : Str) (pc : Option Str) (p : Playlist)
    (rows0 out : RowMap)
    (h1 : Formatter.rowsFromPrevContent today pc Formatter.dividerLine6 = some rows0)
    (h2 : Formatter.mergeTracks today rows0 p.tracks = some out) :
    Formatter.cumulativeRows today pc p = some out := by
  unfold Formatter.cumulativeRows
  rw [h1]
  exact h2

theorem rowsFromPrevContent_some (today content : Str) (d : Str) (rls : List Str)
    (hne : content ≠ []) (hafter : Formatter.afterFirst d (splitlines content) = some rls) :
    Formatter.rowsFromPrevContent today (some content) d =
      Formatter.parseLines today [] rls := by
  show (if content = [] then some [] else
      match Formatter.afterFirst d (splitlines content) with
      | none => some []
      | some rest => Formatter.parseLines today [] rest) =
    Formatter.parseLines today [] rls
  rw [if_neg hne, hafter]

theorem getLast?_cons_spec : ∀ (rls : List Str) (d : Str),
    ∃ x, (d :: rls).getLast? = some x ∧ x ∈ d :: rls := by
  intro rls
  induction rls with
  | nil =>
    intro d
    exact ⟨d, by simp, List.mem_cons_self d []⟩
  | cons y r2 ih =>
    intro d
    obtain ⟨x, hx, hmem⟩ := ih y
    exact ⟨x, by rw [List.getLast?_cons_cons]; exact hx, List.mem_cons_of_mem d hmem⟩

theorem rendered_getLast_ne (pre : List Str) (d : Str) (rls : List Str)
    (hd : d ≠ []) (hr : ∀ x ∈ rls, x ≠ []) :
    (pre ++ d :: rls).getLast? ≠ some ([] : Str) := by
  obtain ⟨x, hx, hmem⟩ := getLast?_cons_spec rls d
  rw [List.getLast?_append, hx, Option.or_some]
  intro hc
  have hxnil : x = [] := Option.some.inj hc
  rcases List.mem_cons.mp hmem with h | h
  · exact hd (by rw [← h]; exact hxnil)
  · exact hr x h hxnil

/-- Feeding the rendered ledger of well-formed rows back to
`_rows_from_prev_content` recovers the rows, with `Removed` primed. -/
theorem parse_of_render (today2 name : Str) (purl : Option Str) (pid desc : Str)
    (rows : RowMap)
    (hname : noBreakStr name) (hurl : ∀ v, purl = some v → noBreakStr v)
    (hpid : noBreakStr pid) (hdesc : noBreakStr desc)
    (hwf : ∀ kr ∈ rows, cellsWf kr.2 ∧
      Formatter.rowKey kr.2.title kr.2.artists kr.2.album = some kr.1)
    (hnd : (keysOf rows).Nodup) :
    Formatter.rowsFromPrevContent today2
      (some (interc ['\n']
        ((Formatter.markdownHeaderLines name purl pid desc true none ++
            [Formatter.columnsLine6, Formatter.dividerLine6]) ++
          rows.map Formatter.rowLine)))
      Formatter.dividerLine6 = some (rows.map (primeRow today2)) := by
  have hnb : ∀ l ∈ (Formatter.markdownHeaderLines name purl pid desc true none ++
      [Formatter.columnsLine6, Formatter.dividerLine6]) ++ rows.map Formatter.rowLine,
      ∀ c ∈ l, isBreakChar c = false := by
    intro l hl
    rcases List.mem_append.mp hl with h1 | h1
    · exact header_lines_noBreak name purl pid desc hname hurl hpid hdesc l h1
    · obtain ⟨kr, hkr, hl2⟩ := List.mem_map.mp h1
      subst hl2
      exact noBreakStr_rowLine kr (hwf kr hkr).1
  have hshape : (Formatter.markdownHeaderLines name purl pid desc true none ++
      [Formatter.columnsLine6, Formatter.dividerLine6]) ++ rows.map Formatter.rowLine =
      (Formatter.markdownHeaderLines name purl pid desc true none ++
        [Formatter.columnsLine6]) ++
        Formatter.dividerLine6 :: rows.map Formatter.rowLine := by
    simp
  have hlast : ((Formatter.markdownHeaderLines name purl pid desc true none ++
      [Formatter.columnsLine6, Formatter.dividerLine6]) ++
        rows.map Formatter.rowLine).getLast? ≠ some [] := by
    rw [hshape]
    refine rendered_getLast_ne _ _ _ (by decide) ?_
    intro x hx
    obtain ⟨kr, hkr, hx2⟩ := List.mem_map.mp hx
    subst hx2
    exact rowLine_ne_nil kr
  have hsplit := splitlines_join _ hnb hlast
  have htne : interc ['\n']
      ((Formatter.markdownHeaderLines name purl pid desc true none ++
          [Formatter.columnsLine6, Formatter.dividerLine6]) ++
        rows.map Formatter.rowLine) ≠ [] := by
    intro hc
    have h0 := hsplit
    rw [hc] at h0
    have h1 : ([] : List Str) = (Formatter.markdownHeaderLines name purl pid desc true none ++
        [Formatter.columnsLine6, Formatter.dividerLine6]) ++ rows.map Formatter.rowLine := h0
    rw [hshape] at h1
    have h2 := congrArg List.length h1
    simp only [List.length_nil, List.length_append, List.length_cons] at h2
    omega
  have hafter : Formatter.afterFirst Formatter.dividerLine6
      (splitlines (interc ['\n']
        ((Formatter.markdownHeaderLines name purl pid desc true none ++
            [Formatter.columnsLine6, Formatter.dividerLine6]) ++
          rows.map Formatter.rowLine))) = some (rows.map Formatter.rowLine) := by
    rw [hsplit, hshape]
    exact afterFirst_prefix _ _ _ (header_lines_ne_divider name purl pid desc)
  have hparse : Formatter.parseLines today2 [] (rows.map Formatter.rowLine) =
      some (rows.map (primeRow today2)) := by
    have h2 := parseLines_rendered today2 rows [] hwf (by simpa [keysOf] using hnd)
    simpa using h2
  rw [rowsFromPrevContent_some today2 _ Formatter.dividerLine6
    (rows.map Formatter.rowLine) htne hafter]
  exact hparse

theorem addedOf_some_added (today : Str) (r : Row) (h : r.added = today) :
    Formatter.addedOf today (some r) = today := by
  show (if r.added = [] then today else r.added) = today
  rw [h]
  split <;> rfl



/-! ### Provenance of the first run's rows -/

theorem firstRun_entry (today : Str) (tracks : List Track) (rows1 : RowMap)
    (h : Formatter.mergeTracks today [] tracks = some rows1) :
    ∀ kr ∈ rows1, ∃ t len, t ∈ tracks ∧ Formatter.trackKey t = kr.1 ∧
      lastMatch kr.1 tracks = some t ∧
      Formatter.formatDuration t.duration_ms = some len ∧
      kr.2 = Formatter.mergeRow today none t len := by
  intro kr hkr
  have hnd : (keysOf rows1).Nodup :=
    mergeTracks_nodup today tracks [] rows1 h (by simp [keysOf])
  have hlook := lookupRow_of_mem_nodup rows1 hnd kr hkr
  rcases hlm : lastMatch kr.1 tracks with _ | t
  · have h1 := (mergeTracks_char today tracks [] rows1 h kr.1).1 hlm
    rw [hlook] at h1
    exact Option.noConfusion h1
  · obtain ⟨len, hfd, hlook2⟩ := (mergeTracks_char today tracks [] rows1 h kr.1).2 t hlm
    rw [hlook] at hlook2
    obtain ⟨hmem, hkey⟩ := lastMatch_some_spec kr.1 tracks t hlm
    exact ⟨t, len, hmem, hkey, rfl, hfd, Option.some.inj hlook2⟩

theorem firstRun_key_mem (today : Str) (tracks : List Track) (rows1 : RowMap)
    (h : Formatter.mergeTracks today [] tracks = some rows1) :
    ∀ t ∈ tracks, Formatter.trackKey t ∈ keysOf rows1 := by
  intro t ht
  obtain ⟨t2, hlm⟩ := lastMatch_of_exists (Formatter.trackKey t) tracks ⟨t, ht, rfl⟩
  obtain ⟨len, hfd, hlook⟩ :=
    (mergeTracks_char today tracks [] rows1 h (Formatter.trackKey t)).2 t2 hlm
  exact (lookupRow_isSome_iff_mem _ rows1).mp (by rw [hlook]; rfl)

/-- A first-run row has well-formed cells and re-derives its own key. -/
theorem firstRun_cellsWf (today : Str) (t : Track) (len : Str)
    (ht : wfTrack t) (htoday : wfDate today)
    (hfd : Formatter.formatDuration t.duration_ms = some len) :
    cellsWf (Formatter.mergeRow today none t len) ∧
    Formatter.rowKey (Formatter.mergeRow today none t len).title
      (Formatter.mergeRow today none t len).artists
      (Formatter.mergeRow today none t len).album = some (Formatter.trackKey t) := by
  obtain ⟨len2, hfd2, hne, hnb, hpipe⟩ := formatDuration_wf t.duration_ms ht.2.2.2.2.2
  rw [hfd] at hfd2
  have hl : len = len2 := Option.some.inj hfd2
  subst hl
  exact ⟨mergeRow_none_cellsWf today t len ht htoday ⟨hne, hnb, hpipe⟩,
    mergeRow_none_rowKey today t len ht⟩

/-! ### C5: merging the engine's own output back in -/

/-- C5 (amended): for a playlist whose tracks are all well formed (every
track, artist and album URL present, non-empty, break-free and free of `')'`
and `'|'`; every name non-empty, break-free, pipe-free and free of the
substring `"]("`; every duration at least one second) and break-free
metadata, `merge(today, render(merge(today, None, P)), P)` reproduces the
identical text.  For arbitrary playlists the round trip can instead raise
(see the counterexample): a track with an absent URL renders a plain title
cell on which `_unlink` raises during the second merge. -/
theorem C5_idempotent_merge (today pid : Str) (p : Playlist)
    (htoday : wfDate today) (hname : noBreakStr p.name)
    (hurl : ∀ v, p.url = some v → noBreakStr v)
    (hdesc : noBreakStr p.description) (hpid : noBreakStr pid)
    (htracks : ∀ t ∈ p.tracks, wfTrack t) :
    ∃ text1, Formatter.cumulative today none pid p none = some text1 ∧
      Formatter.cumulative today (some text1) pid p none = some text1 := by
  obtain ⟨rows1, hrows1⟩ := mergeTracks_total today p.tracks []
    (fun t ht => (htracks t ht).2.2.2.2.2)
  have hnd1 : (keysOf rows1).Nodup :=
    mergeTracks_nodup today p.tracks [] rows1 hrows1 (by simp [keysOf])
  set srows := Formatter.sortRows rows1 with hsrows
  have hperm : srows.Perm rows1 := List.perm_insertionSort Formatter.keyLe rows1
  have hkeysperm : (keysOf srows).Perm (keysOf rows1) := hperm.map Prod.fst
  have hndS : (keysOf srows).Nodup := hkeysperm.nodup_iff.mpr hnd1
  have hlookS : ∀ k, lookupRow k srows = lookupRow k rows1 :=
    fun k => lookupRow_perm srows rows1 hperm hndS k
  have hentry : ∀ kr ∈ srows, ∃ t len, t ∈ p.tracks ∧ Formatter.trackKey t = kr.1 ∧
      lastMatch kr.1 p.tracks = some t ∧
      Formatter.formatDuration t.duration_ms = some len ∧
      kr.2 = Formatter.mergeRow today none t len :=
    fun kr hkr => firstRun_entry today p.tracks rows1 hrows1 kr (hperm.mem_iff.mp hkr)
  have hwfS : ∀ kr ∈ srows, cellsWf kr.2 ∧
      Formatter.rowKey kr.2.title kr.2.artists kr.2.album = some kr.1 := by
    intro kr hkr
    obtain ⟨t, len, hmem, hkey, -, hfd, hval⟩ := hentry kr hkr
    have h := firstRun_cellsWf today t len (htracks t hmem) htoday hfd
    rw [hval, ← hkey]
    exact h
  have hcr1 : Formatter.cumulativeRows today none p = some rows1 :=
    cumulativeRows_of today none p [] rows1 rfl hrows1
  set text1 := interc ['\n']
    ((Formatter.markdownHeaderLines p.name p.url pid p.description true none ++
        [Formatter.columnsLine6, Formatter.dividerLine6]) ++
      srows.map Formatter.rowLine) with htext1
  refine ⟨text1, cumulative_eq today none pid p rows1 hcr1, ?_⟩
  have hrfpc : Formatter.rowsFromPrevContent today (some text1) Formatter.dividerLine6 =
      some (srows.map (primeRow today)) := by
    rw [htext1]
    exact parse_of_render today p.name p.url pid p.description srows
      hname hurl hpid hdesc hwfS hndS
  set prs := srows.map (primeRow today) with hprs
  obtain ⟨out2, hout2⟩ := mergeTracks_total today p.tracks prs
    (fun t ht => (htracks t ht).2.2.2.2.2)
  have hkeysP : keysOf prs = keysOf srows := keysOf_map_primeRow today srows
  have hkeysmem : ∀ t ∈ p.tracks, Formatter.trackKey t ∈ keysOf prs := by
    intro t ht
    rw [hkeysP]
    exact hkeysperm.mem_iff.mpr (firstRun_key_mem today p.tracks rows1 hrows1 t ht)
  have hkeys2 : keysOf out2 = keysOf prs :=
    mergeTracks_keys today p.tracks prs out2 hout2 hkeysmem
  have hndP : (keysOf prs).Nodup := by
    rw [hkeysP]
    exact hndS
  have hlookP : ∀ k, lookupRow k prs = (lookupRow k srows).map
      (fun r => { r with removed := if r.removed = [] then today else r.removed }) :=
    lookupRow_map_primeRow today srows
  have hpoint : ∀ k, lookupRow k out2 = lookupRow k srows := by
    intro k
    rcases hlm : lastMatch k p.tracks with _ | t
    · have h2 := (mergeTracks_char today p.tracks prs out2 hout2 k).1 hlm
      have h1 := (mergeTracks_char today p.tracks [] rows1 hrows1 k).1 hlm
      rw [h2, hlookP k, hlookS k, h1]
      rfl
    · obtain ⟨len2, hfd2, hl2⟩ := (mergeTracks_char today p.tracks prs out2 hout2 k).2 t hlm
      obtain ⟨len1, hfd1, hl1⟩ := (mergeTracks_char today p.tracks [] rows1 hrows1 k).2 t hlm
      rw [hfd1] at hfd2
      have hlen : len1 = len2 := Option.some.inj hfd2
      subst hlen
      rw [hl2, hlookP k, hlookS k, hl1]
      simp only [Option.map_some']
      exact congrArg some
        (mergeRow_congr_old today _ _ t len1 (addedOf_some_added today _ rfl))
  have hout2eq : out2 = srows :=
    assoc_ext out2 srows (by rw [hkeys2, hkeysP]) (by rw [hkeys2]; exact hndP) hpoint
  have hcr2 : Formatter.cumulativeRows today (some text1) p = some srows := by
    refine cumulativeRows_of today (some text1) p prs srows hrfpc ?_
    rw [← hout2eq]
    exact hout2
  have hsorted : List.Sorted Formatter.keyLe srows := by
    rw [hsrows]
    exact List.sorted_insertionSort Formatter.keyLe rows1
  have hsorteq : Formatter.sortRows srows = srows := by
    unfold Formatter.sortRows
    exact hsorted.insertionSort_eq
  have hfinal := cumulative_eq today (some text1) pid p srows hcr2
  rw [hsorteq] at hfinal
  exact hfinal



def C5_badT : Track :=
  { id := ("i").data, url := none, duration_ms := 61000, name := ("a").data,
    album := { url := some (("w").data), name := ("b").data },
    artists := [{ url := some (("v").data), name := ("c").data }] }

def C5_badP : Playlist :=
  { id := ("x").data, url := none, name := ("n").data, description := ("d").data,
    tracks := [C5_badT] }

/-- The unqualified round trip fails: a track with an absent URL renders a
plain title cell; the first merge succeeds, but feeding the rendered text
back in makes `_unlink` raise (`None`), so the second merge produces no
output at all, let alone identical text. -/
theorem C5_counterexample :
    Formatter.cumulative (("2025-01-01").data) none (("x").data) C5_badP none ≠ none ∧
    (Formatter.cumulative (("2025-01-01").data) none (("x").data) C5_badP none).bind
      (fun text1 =>
        Formatter.cumulative (("2025-01-01").data) (some text1) (("x").data) C5_badP none) =
      none := by
  constructor
  · decide
  · decide

def C5_okT : Track :=
  { id := ("i").data, url := some (("u").data), duration_ms := 61000, name := ("a").data,
    album := { url := some (("w").data), name := ("b").data },
    artists := [{ url := some (("v").data), name := ("c").data }] }

def C5_okP : Playlist :=
  { id := ("x").data, url := none, name := ("n").data, description := ("d").data,
    tracks := [C5_okT] }

theorem C5_idempotent_merge_witness :
    ∃ text1,
      Formatter.cumulative (("2025-01-01").data) none (("x").data) C5_okP none = some text1 ∧
      Formatter.cumulative (("2025-01-01").data) (some text1) (("x").data) C5_okP none =
        some text1 :=
  C5_idempotent_merge (("2025-01-01").data) (("x").data) C5_okP (by decide) (by decide)
    (fun v hv => Option.noConfusion hv) (by decide) (by decide) (by decide)



/-! ### C4: the add / remove / reappear lifecycle -/

theorem setRow_single (k : Str) (v w : Row) : setRow k v [(k, w)] = [(k, v)] := by
  simp [setRow]

theorem lookupRow_single (k : Str) (w : Row) : lookupRow k [(k, w)] = some w := by
  simp [lookupRow]

/-- C4 (amended): for a well-formed track `T` (URLs present and clean, names
clean, duration at least one second) and break-free dates and metadata,
merging a playlist containing `T` on day 1 yields the row for `T` with
`Added = d1` and `Removed` empty; merging the same playlist without `T` on
day 2 over the day-1 output keeps the row with `Added = d1` and
`Removed = d2`; merging with `T` present again on day 3 over the day-2
output restores `Added = d1` and clears `Removed`.  For a track with an
absent URL the day-2 merge over the day-1 output raises instead (see the
counterexample), so the lifecycle does not hold for every track. -/
theorem C4_lifecycle (d1 d2 d3 pid : Str) (p pE : Playlist) (T : Track)
    (hp : p.tracks = [T]) (hpE : pE.tracks = [])
    (hT : wfTrack T) (hd1w : wfDate d1) (hd2w : wfDate d2)
    (hd1 : d1 ≠ [])
    (hname : noBreakStr p.name) (hurl : ∀ v, p.url = some v → noBreakStr v)
    (hdesc : noBreakStr p.description)
    (hnameE : noBreakStr pE.name) (hurlE : ∀ v, pE.url = some v → noBreakStr v)
    (hdescE : noBreakStr pE.description)
    (hpid : noBreakStr pid) :
    ∃ text1 text2 r1 r2 r3,
      Formatter.cumulative d1 none pid p none = some text1 ∧
      Formatter.cumulativeRows d1 none p = some [(Formatter.trackKey T, r1)] ∧
      r1.added = d1 ∧ r1.removed = [] ∧
      Formatter.cumulative d2 (some text1) pid pE none = some text2 ∧
      Formatter.cumulativeRows d2 (some text1) pE = some [(Formatter.trackKey T, r2)] ∧
      r2.added = d1 ∧ r2.removed = d2 ∧
      Formatter.cumulativeRows d3 (some text2) p = some [(Formatter.trackKey T, r3)] ∧
      r3.added = d1 ∧ r3.removed = [] := by

  obtain ⟨len, hfd, hlenne, hlennb, hlenpipe⟩ := formatDuration_wf T.duration_ms hT.2.2.2.2.2
  set r1 := Formatter.mergeRow d1 none T len with hr1
  -- day 1
  have hm1 : Formatter.mergeTracks d1 [] p.tracks = some [(Formatter.trackKey T, r1)] := by
    rw [hp, mergeTracks_cons_some d1 [] T [] len hfd]
    rfl
  have hcr1 : Formatter.cumulativeRows d1 none p = some [(Formatter.trackKey T, r1)] :=
    cumulativeRows_of d1 none p [] _ rfl hm1
  have hwf1 := firstRun_cellsWf d1 T len hT hd1w hfd
  have hrowswf1 : ∀ kr ∈ [(Formatter.trackKey T, r1)],
      cellsWf kr.2 ∧ Formatter.rowKey kr.2.title kr.2.artists kr.2.album = some kr.1 := by
    intro kr hkr
    rw [List.mem_singleton] at hkr
    subst hkr
    exact hwf1
  have hnd1 : (keysOf [(Formatter.trackKey T, r1)]).Nodup := by
    simp [keysOf]
  have hss1 : Formatter.sortRows [(Formatter.trackKey T, r1)] =
      [(Formatter.trackKey T, r1)] := rfl
  have hc1 := cumulative_eq d1 none pid p _ hcr1
  rw [hss1] at hc1
  -- day 2
  set r2 := { r1 with removed := d2 } with hr2def
  have hparse1 := parse_of_render d2 p.name p.url pid p.description
    [(Formatter.trackKey T, r1)] hname hurl hpid hdesc hrowswf1 hnd1
  have hprimed1 : ([(Formatter.trackKey T, r1)]).map (primeRow d2) =
      [(Formatter.trackKey T, r2)] := rfl
  rw [hprimed1] at hparse1
  have hm2 : Formatter.mergeTracks d2 [(Formatter.trackKey T, r2)] pE.tracks =
      some [(Formatter.trackKey T, r2)] := by
    rw [hpE]
    rfl
  have hcr2 := cumulativeRows_of d2 _ pE _ _ hparse1 hm2
  have hss2 : Formatter.sortRows [(Formatter.trackKey T, r2)] =
      [(Formatter.trackKey T, r2)] := rfl
  have hc2 := cumulative_eq d2 _ pid pE _ hcr2
  rw [hss2] at hc2
  -- day 3
  have hwf2 : cellsWf r2 ∧
      Formatter.rowKey r2.title r2.artists r2.album = some (Formatter.trackKey T) := by
    obtain ⟨⟨q1, q2, q3, q4, q5, q6⟩, n1, n2, n3, n4, n5, n6⟩ := hwf1.1
    exact ⟨⟨⟨q1, q2, q3, q4, q5, hd2w.2⟩, n1, n2, n3, n4, n5, hd2w.1⟩, hwf1.2⟩
  have hrowswf2 : ∀ kr ∈ [(Formatter.trackKey T, r2)],
      cellsWf kr.2 ∧ Formatter.rowKey kr.2.title kr.2.artists kr.2.album = some kr.1 := by
    intro kr hkr
    rw [List.mem_singleton] at hkr
    subst hkr
    exact hwf2
  have hnd2 : (keysOf [(Formatter.trackKey T, r2)]).Nodup := by
    simp [keysOf]
  have hparse2 := parse_of_render d3 pE.name pE.url pid pE.description
    [(Formatter.trackKey T, r2)] hnameE hurlE hpid hdescE hrowswf2 hnd2
  set pr2 := { r2 with removed := if d2 = [] then d3 else d2 } with hpr2def
  have hprimed2 : ([(Formatter.trackKey T, r2)]).map (primeRow d3) =
      [(Formatter.trackKey T, pr2)] := rfl
  rw [hprimed2] at hparse2
  set r3 := Formatter.mergeRow d3 (some pr2) T len with hr3def
  have hm3 : Formatter.mergeTracks d3 [(Formatter.trackKey T, pr2)] p.tracks =
      some [(Formatter.trackKey T, r3)] := by
    rw [hp, mergeTracks_cons_some d3 _ T [] len hfd, mergeTracks_nil,
      lookupRow_single (Formatter.trackKey T) pr2,
      setRow_single (Formatter.trackKey T) _ pr2]
  have hcr3 := cumulativeRows_of d3 _ p _ _ hparse2 hm3
  have hadded3 : r3.added = d1 := by
    show Formatter.addedOf d3 (some pr2) = d1
    show (if pr2.added = [] then d3 else pr2.added) = d1
    have hpa : pr2.added = d1 := rfl
    rw [hpa, if_neg hd1]
  exact ⟨_, _, r1, r2, r3, hc1, hcr1, rfl, rfl, hc2, hcr2, rfl, rfl, hcr3, hadded3, rfl⟩



def C4_badT : Track :=
  { id := ("j").data, url := none, duration_ms := 61000, name := ("e").data,
    album := { url := some (("w").data), name := ("b").data },
    artists := [{ url := some (("v").data), name := ("c").data }] }

def C4_badP : Playlist :=
  { id := ("y").data, url := none, name := ("m").data, description := ("d").data,
    tracks := [C4_badT] }

def C4_badPE : Playlist :=
  { id := ("y").data, url := none, name := ("m").data, description := ("d").data,
    tracks := [] }

/-- The unqualified lifecycle claim fails: for a track with an absent URL the
day-1 merge succeeds (plain title cell), but the day-2 merge over the day-1
output makes `_unlink` raise while re-deriving the row's key, so no day-2 row
(with `Removed = d2` or otherwise) is ever produced. -/
theorem C4_counterexample :
    Formatter.cumulative (("2025-01-01").data) none (("y").data) C4_badP none ≠ none ∧
    (Formatter.cumulative (("2025-01-01").data) none (("y").data) C4_badP none).bind
      (fun text1 =>
        Formatter.cumulative (("2025-01-02").data) (some text1) (("y").data) C4_badPE none) =
      none := by
  constructor
  · decide
  · decide

def C4_T : Track :=
  { id := ("i").data, url := some (("u").data), duration_ms := 61000, name := ("a").data,
    album := { url := some (("w").data), name := ("b").data },
    artists := [{ url := some (("v").data), name := ("c").data }] }

def C4_P : Playlist :=
  { id := ("z").data, url := none, name := ("n").data, description := ("d").data,
    tracks := [C4_T] }

def C4_PE : Playlist :=
  { id := ("z").data, url := none, name := ("n").data, description := ("d").data,
    tracks := [] }

theorem C4_lifecycle_witness :
    ∃ text1 text2 r1 r2 r3,
      Formatter.cumulative (("2025-01-01").data) none (("q").data) C4_P none = some text1 ∧
      Formatter.cumulativeRows (("2025-01-01").data) none C4_P =
        some [(Formatter.trackKey C4_T, r1)] ∧
      r1.added = ("2025-01-01").data ∧ r1.removed = [] ∧
      Formatter.cumulative (("2025-01-02").data) (some text1) (("q").data) C4_PE none =
        some text2 ∧
      Formatter.cumulativeRows (("2025-01-02").data) (some text1) C4_PE =
        some [(Formatter.trackKey C4_T, r2)] ∧
      r2.added = ("2025-01-01").data ∧ r2.removed = ("2025-01-02").data ∧
      Formatter.cumulativeRows (("2025-01-03").data) (some text2) C4_P =
        some [(Formatter.trackKey C4_T, r3)] ∧
      r3.added = ("2025-01-01").data ∧ r3.removed = [] :=
  C4_lifecycle (("2025-01-01").data) (("2025-01-02").data) (("2025-01-03").data)
    (("q").data) C4_P C4_PE C4_T rfl rfl (by decide) (by decide) (by decide) (by decide)
    (by decide) (fun v hv => Option.noConfusion hv) (by decide)
    (by decide) (fun v hv => Option.noConfusion hv) (by decide) (by decide)


end SpotifyArchive
